import Mathlib

/-!
A shallow embedding of the core of the `vscode-files2prompt` extension:
the `PromptItemStore` ordered collection (src/core/PromptItemStore.ts),
the `PromptGenerator` assembly pipeline (src/services/PromptGenerator.ts),
the `IgnoreService` glob engine (the `ExportService`/`IgnoreService` file),
and the `UserInstructionProvider` title derivation
(src/providers/UserInstructionProvider.ts).

Modelling conventions:
* TypeScript strings are Lean `String`s (or `List Char` where induction is
  needed); JavaScript array methods are the corresponding `List` operations.
* A dynamic content producer (`() => Promise<string>`) is modelled by its
  outcome, `Except String String`: `.ok s` is a producer that resolves to
  `s`, `.error m` is a producer that rejects with an error whose message
  is `m`.
* The store's `vscode.EventEmitter` is modelled by a log of fired events
  carried in the store state; firing an event appends to the log.
* `Partial<PromptItem>` is a structure of `Option` fields; `Object.assign`
  overwrites exactly the supplied fields.
-/

namespace Files2Prompt

/-- The `PromptItemType` union from src/types/index.ts. -/
inductive PromptItemType where
  | file
  | snippet
  | terminal
  | tree
  | gitDiff
  | userInstruction
deriving DecidableEq, Repr

/-- The `ContentMode` union from src/types/index.ts. -/
inductive ContentMode where
  | static
  | dynamic
deriving DecidableEq, Repr

instance : DecidableEq (Except String String) := fun a b =>
  match a, b with
  | .ok x, .ok y =>
    if h : x = y then isTrue (by rw [h]) else isFalse (by intro hh; cases hh; exact h rfl)
  | .ok _, .error _ => isFalse (by intro h; cases h)
  | .error _, .ok _ => isFalse (by intro h; cases h)
  | .error x, .error y =>
    if h : x = y then isTrue (by rw [h]) else isFalse (by intro hh; cases hh; exact h rfl)

/-- `PromptContent = string | DynamicContentGenerator`.  A generator is
modelled by its outcome: `.ok` for a resolving producer, `.error msg` for a
producer that rejects with message `msg`. -/
inductive PromptContent where
  | str : String → PromptContent
  | generator : Except String String → PromptContent
deriving DecidableEq, Repr

/-- The `PromptItem` union from src/types/index.ts, flattened: the
kind-specific fields (`filePath`, `language`, `lineStart`, `lineEnd`) are
`Option`s, present according to the `type` tag, mirroring the runtime
JavaScript object shape. -/
structure PromptItem where
  id : String
  type : PromptItemType
  title : String
  content : PromptContent
  mode : ContentMode
  index : Nat
  filePath : Option String
  language : Option String
  lineStart : Option Int
  lineEnd : Option Int
deriving DecidableEq, Repr

/-- `ItemChangeEventType` from src/types/index.ts. -/
inductive ItemChangeEventType where
  | add
  | remove
  | update
  | reorder
  | clear
deriving DecidableEq, Repr

/-- `ItemChangeEvent` from src/types/index.ts. -/
structure ItemChangeEvent where
  type : ItemChangeEventType
  item : Option PromptItem
  items : Option (List PromptItem)
deriving DecidableEq, Repr

/-- The store state: the private `items` array plus the log of events fired
through `_onDidChange` (most recent last). -/
structure PromptItemStore where
  items : List PromptItem
  events : List ItemChangeEvent
deriving DecidableEq, Repr

/-- The empty store (`private items: PromptItem[] = []`). -/
def PromptItemStore.empty : PromptItemStore := { items := [], events := [] }

/-- `private reindex()`: `this.items.forEach((item, index) => { item.index = index })`. -/
def reindex (l : List PromptItem) : List PromptItem :=
  l.mapIdx fun i it => { it with index := i }

/-- `add(item)`: sets `item.index = this.items.length`, pushes, fires `add`. -/
def PromptItemStore.add (s : PromptItemStore) (item : PromptItem) : PromptItemStore :=
  let item' := { item with index := s.items.length }
  { items := s.items ++ [item'],
    events := s.events ++ [⟨.add, some item', none⟩] }

/-- `remove(id)`: `findIndex` by id; absent ⇒ `undefined`, no mutation, no
event.  Present ⇒ splice out, `reindex()`, fire `remove` with the removed
item, return it. -/
def PromptItemStore.remove (s : PromptItemStore) (id : String) :
    Option PromptItem × PromptItemStore :=
  match s.items.findIdx? (fun it => it.id = id) with
  | none => (none, s)
  | some i =>
    match s.items[i]? with
    | none => (none, s)
    | some removed =>
      (some removed,
        { items := reindex (s.items.eraseIdx i),
          events := s.events ++ [⟨.remove, some removed, none⟩] })

/-- `Partial<PromptItem>`: each field optionally supplied. -/
structure PartialPromptItem where
  id : Option String := none
  type : Option PromptItemType := none
  title : Option String := none
  content : Option PromptContent := none
  mode : Option ContentMode := none
  index : Option Nat := none
  filePath : Option (Option String) := none
  language : Option (Option String) := none
  lineStart : Option (Option Int) := none
  lineEnd : Option (Option Int) := none
deriving DecidableEq, Repr

/-- `Object.assign(item, updates)`: every supplied field overwrites the
item's field; absent fields are kept. -/
def objectAssign (it : PromptItem) (u : PartialPromptItem) : PromptItem :=
  { id := u.id.getD it.id,
    type := u.type.getD it.type,
    title := u.title.getD it.title,
    content := u.content.getD it.content,
    mode := u.mode.getD it.mode,
    index := u.index.getD it.index,
    filePath := u.filePath.getD it.filePath,
    language := u.language.getD it.language,
    lineStart := u.lineStart.getD it.lineStart,
    lineEnd := u.lineEnd.getD it.lineEnd }

/-- `update(id, updates)`: `find` by id (the first match); absent ⇒ `false`,
no mutation, no event.  Present ⇒ `Object.assign` in place, fire `update`. -/
def PromptItemStore.update (s : PromptItemStore) (id : String)
    (u : PartialPromptItem) : Bool × PromptItemStore :=
  match s.items.findIdx? (fun it => it.id = id) with
  | none => (false, s)
  | some i =>
    match s.items[i]? with
    | none => (false, s)
    | some it =>
      let it' := objectAssign it u
      (true,
        { items := s.items.set i it',
          events := s.events ++ [⟨.update, some it', none⟩] })

/-- `getById(id)`: `this.items.find(item => item.id === id)`. -/
def PromptItemStore.getById (s : PromptItemStore) (id : String) : Option PromptItem :=
  s.items.find? (fun it => it.id = id)

/-- `getAll()`: `[...this.items]` — a fresh array with the same elements. -/
def PromptItemStore.getAll (s : PromptItemStore) : List PromptItem :=
  s.items

/-- `private isValidIndex(index)`: `index >= 0 && index < this.items.length`.
The argument is an `Int`, as JavaScript indices may be negative. -/
def PromptItemStore.isValidIndex (s : PromptItemStore) (i : Int) : Bool :=
  0 ≤ i ∧ i < s.items.length

/-- `reorder(fromIndex, toIndex)`: both indices valid or `false` with no
mutation and no event; otherwise splice the element out at `fromIndex`,
splice it back in at `toIndex`, `reindex()`, fire `reorder`. -/
def PromptItemStore.reorder (s : PromptItemStore) (fromIndex toIndex : Int) :
    Bool × PromptItemStore :=
  if ¬ s.isValidIndex fromIndex ∨ ¬ s.isValidIndex toIndex then
    (false, s)
  else
    match s.items[fromIndex.toNat]? with
    | none => (false, s)
    | some item =>
      let items' := reindex (((s.items.eraseIdx fromIndex.toNat).insertIdx toIndex.toNat) item)
      (true,
        { items := items',
          events := s.events ++ [⟨.reorder, none, some items'⟩] })

/-- `clear()`: empties the collection, fires `clear` with the removed
snapshot. -/
def PromptItemStore.clear (s : PromptItemStore) : PromptItemStore :=
  { items := [],
    events := s.events ++ [⟨.clear, none, some s.items⟩] }

/-- Store states reachable from the empty store by any sequence of `add`,
`remove` and `reorder` calls (with arbitrary arguments). -/
inductive Reachable : PromptItemStore → Prop where
  | empty : Reachable PromptItemStore.empty
  | add (s : PromptItemStore) (item : PromptItem) :
      Reachable s → Reachable (s.add item)
  | remove (s : PromptItemStore) (id : String) :
      Reachable s → Reachable (s.remove id).2
  | reorder (s : PromptItemStore) (f t : Int) :
      Reachable s → Reachable (s.reorder f t).2

/-- The index-density property: `items[i].index === i` for every valid `i`. -/
def DenseIndices (l : List PromptItem) : Prop :=
  ∀ i (h : i < l.length), (l.get ⟨i, h⟩).index = i

/-- `reindex` establishes index density outright. -/
theorem reindex_dense (l : List PromptItem) : DenseIndices (reindex l) := by
  intro i h
  simp only [List.get_eq_getElem, reindex, List.getElem_mapIdx]

/-- `add` preserves index density. -/
theorem dense_add (s : PromptItemStore) (item : PromptItem)
    (hd : DenseIndices s.items) : DenseIndices (s.add item).items := by
  intro i h
  simp only [PromptItemStore.add, List.get_eq_getElem] at h ⊢
  rcases Nat.lt_or_ge i s.items.length with hlt | hge
  · rw [List.getElem_append_left hlt]
    exact hd i hlt
  · have hlen : i < s.items.length + 1 := by simpa using h
    have hi : i = s.items.length := Nat.le_antisymm (Nat.lt_succ_iff.mp hlen) hge
    subst hi
    rw [List.getElem_append_right (Nat.le_refl _)]
    simp

/-- Every reachable store has dense indices. -/
theorem reachable_dense (s : PromptItemStore) (h : Reachable s) :
    DenseIndices s.items := by
  induction h with
  | empty => intro i h; simp [PromptItemStore.empty] at h
  | add s item _ ih => exact dense_add s item ih
  | remove s id _ ih =>
    unfold PromptItemStore.remove
    cases hf : s.items.findIdx? (fun it => it.id = id) with
    | none => exact ih
    | some i =>
      dsimp only
      cases hg : s.items[i]? with
      | none => exact ih
      | some removed => exact reindex_dense _
  | reorder s f t _ ih =>
    unfold PromptItemStore.reorder
    by_cases hv : ¬ s.isValidIndex f = true ∨ ¬ s.isValidIndex t = true
    · rw [if_pos hv]; exact ih
    · rw [if_neg hv]
      dsimp only
      cases hg : s.items[f.toNat]? with
      | none => exact ih
      | some item => exact reindex_dense _

/-- C1: for every store state reachable from the empty store by any
sequence of `add`, `remove` and `reorder` operations, the `i`-th item of
the store's sequence has `index` field equal to `i`, for every valid
position `i`. -/
theorem c1_index_density (s : PromptItemStore) (h : Reachable s)
    (i : Nat) (hi : i < s.items.length) : (s.items.get ⟨i, hi⟩).index = i :=
  reachable_dense s h i hi

/-- A sample terminal item used for concrete witnesses. -/
def demoItemA : PromptItem :=
  { id := "a", type := .terminal, title := "A", content := .str "out-a",
    mode := .static, index := 0, filePath := none, language := none,
    lineStart := none, lineEnd := none }

/-- A second sample item used for concrete witnesses. -/
def demoItemB : PromptItem :=
  { id := "b", type := .tree, title := "B", content := .str "out-b",
    mode := .dynamic, index := 5, filePath := some "src", language := none,
    lineStart := none, lineEnd := none }

/-- A concrete reachable store: add two items, then swap them. -/
def demoStoreC1 : PromptItemStore :=
  (((PromptItemStore.empty.add demoItemA).add demoItemB).reorder 0 1).2

theorem demoStoreC1_reachable : Reachable demoStoreC1 :=
  Reachable.reorder _ 0 1
    (Reachable.add _ demoItemB (Reachable.add _ demoItemA Reachable.empty))

/-- Witness for C1 at a concrete reachable store. -/
theorem c1_index_density_witness :
    (demoStoreC1.items.get ⟨1, by decide⟩).index = 1 :=
  c1_index_density demoStoreC1 demoStoreC1_reachable 1 (by decide)

instance : Inhabited PromptItem := ⟨demoItemA⟩

/-- The item with its `index` field cleared, for comparisons that ignore
the in-place reindexing. -/
def stripIndex (it : PromptItem) : PromptItem := { it with index := 0 }

/-- `reindex` only rewrites `index` fields. -/
theorem map_stripIndex_reindex (l : List PromptItem) :
    (reindex l).map stripIndex = l.map stripIndex := by
  apply List.ext_getElem
  · simp [reindex]
  · intro n h₁ h₂
    simp [reindex, stripIndex, List.getElem_mapIdx]

/-- C2: for every store and indices `f`, `t` both in `[0, length)`,
`reorder f t` returns `true` and `getAll()` reads the sequence obtained by
splicing the element out at `f` and splicing it back in at `t` (the items
themselves are reindexed in place, which the value-level `reindex`
mirrors; up to the refreshed `index` fields the sequence is exactly the
manual splice).  If either index is out of range, `reorder` returns
`false` and the store is unchanged. -/
theorem c2_reorder_splice (s : PromptItemStore) (f t : Int) :
    (∀ (hf : s.isValidIndex f = true) (ht : s.isValidIndex t = true),
      (s.reorder f t).1 = true ∧
      (s.reorder f t).2.getAll =
        reindex ((s.items.eraseIdx f.toNat).insertIdx t.toNat
          (s.items.getD f.toNat default)) ∧
      (s.reorder f t).2.getAll.map stripIndex =
        ((s.items.eraseIdx f.toNat).insertIdx t.toNat
          (s.items.getD f.toNat default)).map stripIndex) ∧
    (¬ (s.isValidIndex f = true ∧ s.isValidIndex t = true) →
      s.reorder f t = (false, s)) := by
  constructor
  · intro hf ht
    have hflt : f.toNat < s.items.length := by
      simp only [PromptItemStore.isValidIndex, decide_eq_true_eq] at hf
      omega
    have hget : s.items[f.toNat]? = some s.items[f.toNat] :=
      List.getElem?_eq_getElem hflt
    have hgetD : s.items.getD f.toNat default = s.items[f.toNat] := by
      rw [List.getD_eq_getElem?_getD, hget]; rfl
    have hred : s.reorder f t =
        (true,
          { items := reindex ((s.items.eraseIdx f.toNat).insertIdx t.toNat
              s.items[f.toNat]),
            events := s.events ++ [⟨.reorder, none,
              some (reindex ((s.items.eraseIdx f.toNat).insertIdx t.toNat
                s.items[f.toNat]))⟩] }) := by
      unfold PromptItemStore.reorder
      rw [if_neg (by simp [hf, ht]), hget]
    rw [hgetD, hred]
    exact ⟨rfl, rfl, map_stripIndex_reindex _⟩
  · intro hinval
    have hv : ¬ s.isValidIndex f = true ∨ ¬ s.isValidIndex t = true := by
      tauto
    unfold PromptItemStore.reorder
    rw [if_pos hv]

/-- Witness for C2: a valid swap on a two-item store, and an out-of-range
call on the same store. -/
theorem c2_reorder_splice_witness :
    ((((PromptItemStore.empty.add demoItemA).add demoItemB).reorder 0 1).1 = true ∧
      (((PromptItemStore.empty.add demoItemA).add demoItemB).reorder 0 1).2.getAll =
        reindex ((((PromptItemStore.empty.add demoItemA).add demoItemB).items.eraseIdx 0).insertIdx 1
          ((((PromptItemStore.empty.add demoItemA).add demoItemB).items.getD 0 default))) ∧
      (((PromptItemStore.empty.add demoItemA).add demoItemB).reorder 0 1).2.getAll.map stripIndex =
        (((((PromptItemStore.empty.add demoItemA).add demoItemB).items.eraseIdx 0).insertIdx 1
          ((((PromptItemStore.empty.add demoItemA).add demoItemB).items.getD 0 default)))).map stripIndex) ∧
    (((PromptItemStore.empty.add demoItemA).add demoItemB).reorder 0 5 =
      (false, ((PromptItemStore.empty.add demoItemA).add demoItemB))) := by
  refine ⟨(c2_reorder_splice _ 0 1).1 (by decide) (by decide), ?_⟩
  exact (c2_reorder_splice _ 0 5).2 (by decide)

/-- C6: `remove` with an absent id and `update` with an unknown id are
no-ops returning `undefined`/`false`, and `reorder` with an out-of-range
index is a no-op returning `false`; in each case the store (items and
event log alike) is unchanged, so no change event is fired. -/
theorem c6_invalid_ops_noop (s : PromptItemStore) (id : String)
    (u : PartialPromptItem) (f t : Int) :
    ((∀ it ∈ s.items, it.id ≠ id) →
      s.remove id = (none, s) ∧ s.update id u = (false, s)) ∧
    (¬ (s.isValidIndex f = true ∧ s.isValidIndex t = true) →
      s.reorder f t = (false, s)) := by
  constructor
  · intro habs
    have hnone : s.items.findIdx? (fun it => it.id = id) = none := by
      rw [List.findIdx?_eq_none_iff]
      intro x hx
      simpa using habs x hx
    constructor
    · unfold PromptItemStore.remove
      rw [hnone]
    · unfold PromptItemStore.update
      rw [hnone]
  · intro hinval
    have hv : ¬ s.isValidIndex f = true ∨ ¬ s.isValidIndex t = true := by tauto
    unfold PromptItemStore.reorder
    rw [if_pos hv]

/-- Witness for C6: unknown id and out-of-range index on a one-item store. -/
theorem c6_invalid_ops_noop_witness :
    ((PromptItemStore.empty.add demoItemA).remove "zz" =
        (none, PromptItemStore.empty.add demoItemA) ∧
      (PromptItemStore.empty.add demoItemA).update "zz" {} =
        (false, PromptItemStore.empty.add demoItemA)) ∧
    ((PromptItemStore.empty.add demoItemA).reorder (-1) 0 =
        (false, PromptItemStore.empty.add demoItemA)) := by
  refine ⟨(c6_invalid_ops_noop _ "zz" {} (-1) 0).1 ?_,
    (c6_invalid_ops_noop _ "zz" {} (-1) 0).2 (by decide)⟩
  intro it hit
  simp only [PromptItemStore.add, PromptItemStore.empty, List.nil_append,
    List.mem_singleton] at hit
  subst hit
  decide

/-- The fields the spec calls immutable after creation: `id`, `kind`
(`type`) and `mode`. -/
def itemSig (it : PromptItem) : String × PromptItemType × ContentMode :=
  (it.id, it.type, it.mode)

/-- A one-item store used to exhibit the `update`/`Object.assign`
behaviour on the `id` field. -/
def demoStoreC7 : PromptItemStore := PromptItemStore.empty.add demoItemA

/-- C7 counterexample: `update` merges an arbitrary partial via
`Object.assign`, so a partial that supplies `id` rewrites the stored
item's `id` — the claim that the id never changes under `update` with
arbitrary partial fields is false. -/
theorem c7_counterexample :
    demoStoreC7.items.map PromptItem.id = ["a"] ∧
    (demoStoreC7.update "a" { id := some "b" }).2.items.map PromptItem.id = ["b"] := by
  constructor <;> rfl

/-- C7 (amended): `add` appends an item with unchanged `id`/`type`/`mode`,
and `remove`, `reorder`, and `update` whose partial supplies none of
`id`/`type`/`mode` only produce items whose `id`/`type`/`mode` already
occur in the store; an `update` partial that does supply one of those
fields overwrites it. -/
theorem c7_sig_preserved (s : PromptItemStore) (item : PromptItem)
    (id : String) (u : PartialPromptItem) (f t : Int)
    (hu : u.id = none ∧ u.type = none ∧ u.mode = none) :
    ((s.add item).items.map itemSig = s.items.map itemSig ++ [itemSig item]) ∧
    (∀ it' ∈ (s.remove id).2.items, ∃ it ∈ s.items, itemSig it' = itemSig it) ∧
    (∀ it' ∈ (s.update id u).2.items, ∃ it ∈ s.items, itemSig it' = itemSig it) ∧
    (∀ it' ∈ (s.reorder f t).2.items, ∃ it ∈ s.items, itemSig it' = itemSig it) := by
  obtain ⟨hid, htype, hmode⟩ := hu
  have hsig_reindex : ∀ (l : List PromptItem), ∀ it' ∈ reindex l,
      ∃ it ∈ l, itemSig it' = itemSig it := by
    intro l it' hmem
    rw [List.mem_iff_getElem] at hmem
    obtain ⟨n, hn, hget⟩ := hmem
    have hn' : n < l.length := by simpa [reindex] using hn
    refine ⟨l[n], List.getElem_mem hn', ?_⟩
    rw [← hget]
    simp [reindex, itemSig, List.getElem_mapIdx]
  refine ⟨?_, ?_, ?_, ?_⟩
  · simp [PromptItemStore.add, itemSig]
  · unfold PromptItemStore.remove
    cases hf : s.items.findIdx? (fun it => it.id = id) with
    | none => exact fun it' h => ⟨it', h, rfl⟩
    | some i =>
      dsimp only
      cases hg : s.items[i]? with
      | none => exact fun it' h => ⟨it', h, rfl⟩
      | some removed =>
        intro it' hmem
        obtain ⟨it, hit, hsig⟩ := hsig_reindex _ it' hmem
        exact ⟨it, (s.items.eraseIdx_sublist i).mem hit, hsig⟩
  · unfold PromptItemStore.update
    cases hf : s.items.findIdx? (fun it => it.id = id) with
    | none => exact fun it' h => ⟨it', h, rfl⟩
    | some i =>
      dsimp only
      cases hg : s.items[i]? with
      | none => exact fun it' h => ⟨it', h, rfl⟩
      | some it =>
        intro it' hmem
        rcases List.mem_or_eq_of_mem_set hmem with hold | hnew
        · exact ⟨it', hold, rfl⟩
        · have hit : it ∈ s.items := by
            have := List.getElem?_eq_some_iff.mp hg
            obtain ⟨h, hh⟩ := this
            exact hh ▸ List.getElem_mem h
          refine ⟨it, hit, ?_⟩
          rw [hnew]
          simp [objectAssign, itemSig, hid, htype, hmode]
  · unfold PromptItemStore.reorder
    by_cases hv : ¬ s.isValidIndex f = true ∨ ¬ s.isValidIndex t = true
    · rw [if_pos hv]; exact fun it' h => ⟨it', h, rfl⟩
    · rw [if_neg hv]
      dsimp only
      cases hg : s.items[f.toNat]? with
      | none => exact fun it' h => ⟨it', h, rfl⟩
      | some x =>
        intro it' hmem
        obtain ⟨it, hit, hsig⟩ := hsig_reindex _ it' hmem
        have hx : x ∈ s.items := by
          obtain ⟨h, hh⟩ := List.getElem?_eq_some_iff.mp hg
          exact hh ▸ List.getElem_mem h
        push_neg at hv
        obtain ⟨hvf, hvt⟩ := hv
        simp only [PromptItemStore.isValidIndex, decide_eq_true_eq] at hvf hvt
        have htle : t.toNat ≤ (s.items.eraseIdx f.toNat).length := by
          rw [List.length_eraseIdx]
          have hfl : f.toNat < s.items.length := by omega
          have htl : t.toNat < s.items.length := by omega
          simp only [hfl, if_true]
          omega
        rcases (List.mem_insertIdx htle).mp hit with h | h
        · exact ⟨it, h ▸ hx, hsig⟩
        · exact ⟨it, (s.items.eraseIdx_sublist f.toNat).mem h, hsig⟩

/-- Witness for C7 (amended): concrete store, empty partial. -/
theorem c7_sig_preserved_witness :
    (demoStoreC7.add demoItemB).items.map itemSig =
      demoStoreC7.items.map itemSig ++ [itemSig demoItemB] :=
  (c7_sig_preserved demoStoreC7 demoItemB "a" {} 0 0 ⟨rfl, rfl, rfl⟩).1

/-! ## PromptGenerator (src/services/PromptGenerator.ts) -/

/-- `SortOrder` from src/types/index.ts. -/
inductive SortOrder where
  | openingOrder
  | filePath
deriving DecidableEq, Repr

/-- `CodePromptInfo` from src/services/PromptGenerator.ts. -/
structure CodePromptInfo where
  path : String
  prompt : String
  index : Nat
deriving DecidableEq, Repr

/-- The inline marker substituted for a rejecting dynamic producer:
`` `[Error: 无法生成动态内容 - ${message}]` ``. -/
def errMarker (message : String) : String :=
  "[Error: 无法生成动态内容 - " ++ message ++ "]"

/-- `private async resolveContent(content)`: a string is returned as is; a
generator is awaited, and a rejection is caught and replaced by the
bracketed error marker.  Resolution is total — it never throws. -/
def resolveContent : PromptContent → String
  | .str s => s
  | .generator (.ok s) => s
  | .generator (.error e) => errMarker e

/-- The JavaScript whitespace characters relevant to `String.prototype.trim`
(space, tab, newline, carriage return, vertical tab, form feed). -/
def isJsWhitespace (c : Char) : Bool :=
  c = ' ' ∨ c = '\t' ∨ c = '\n' ∨ c = '\r' ∨ c = '\x0b' ∨ c = '\x0c'

/-- Strip leading JavaScript whitespace. -/
def trimL (l : List Char) : List Char := l.dropWhile isJsWhitespace

/-- Strip trailing JavaScript whitespace. -/
def trimR : List Char → List Char
  | [] => []
  | c :: cs =>
    let r := trimR cs
    if r.isEmpty && isJsWhitespace c then [] else c :: r

/-- `String.prototype.trim`: strip whitespace from both ends. -/
def trimChars (l : List Char) : List Char := trimR (trimL l)

/-- `String.prototype.trim` on `String`s. -/
def jsTrim (s : String) : String := String.mk (trimChars s.data)

/-- Concatenation of one rendered fragment per item, in item order: the
`for` loop's `result += ...` accumulation. -/
def concatMapStr (f : PromptItem → String) : List PromptItem → String
  | [] => ""
  | it :: rest => f it ++ concatMapStr f rest

/-- `formatUserInstructions`: heading, then each instruction's resolved
content followed by a blank line. -/
def formatUserInstructions (items : List PromptItem) : String :=
  "### User Instructions ###\n\n" ++
    concatMapStr (fun it => resolveContent it.content ++ "\n\n") items

/-- `formatTerminals`: heading, then each terminal's title and fenced
output. -/
def formatTerminals (items : List PromptItem) : String :=
  "### Terminal Output ###\n\n" ++
    concatMapStr (fun it =>
      it.title ++ "\n```\n" ++ resolveContent it.content ++ "\n```\n\n") items

/-- `formatTrees`: heading, then each tree's title and fenced rendering. -/
def formatTrees (items : List PromptItem) : String :=
  "### Folder Structure ###\n\n" ++
    concatMapStr (fun it =>
      it.title ++ "\n```\n" ++ resolveContent it.content ++ "\n```\n\n") items

/-- `formatGitDiffs`: heading, then each diff's title and fenced diff. -/
def formatGitDiffs (items : List PromptItem) : String :=
  "### Git Diff (--cached) ###\n\n" ++
    concatMapStr (fun it =>
      it.title ++ "\n```diff\n" ++ resolveContent it.content ++ "\n```\n\n") items

/-- Rendering of a JavaScript property access that may be `undefined`
inside a template literal. -/
def showOptStr : Option String → String
  | some s => s
  | none => "undefined"

/-- Same, for numeric properties. -/
def showOptInt : Option Int → String
  | some n => toString n
  | none => "undefined"

/-- `private formatCodeItem(item, content)`: file and snippet envelopes
with the `<Content src=... lang=...>` wrapper; the snippet path carries a
` (lines a-b)` suffix. -/
def formatCodeItem (it : PromptItem) (content : String) : CodePromptInfo :=
  match it.type with
  | .file =>
    let fp := showOptStr it.filePath
    let wrapped := "<Content src=\"" ++ fp ++ "\" lang=\"" ++
      showOptStr it.language ++ "\">\n" ++ content ++ "\n</Content>"
    { path := fp, prompt := "文件: " ++ fp ++ "\n" ++ wrapped, index := it.index }
  | .snippet =>
    let location := showOptStr it.filePath ++ " (lines " ++
      showOptInt it.lineStart ++ "-" ++ showOptInt it.lineEnd ++ ")"
    let wrapped := "<Content src=\"" ++ location ++ "\" lang=\"" ++
      showOptStr it.language ++ "\">\n" ++ content ++ "\n</Content>"
    { path := location, prompt := "代码片段: " ++ location ++ "\n" ++ wrapped,
      index := it.index }
  | _ => { path := "", prompt := "", index := 0 }

/-- Lexicographic comparison of character lists; the model of
`a.localeCompare(b) <= 0` for the default code-point collation. -/
def charListLe : List Char → List Char → Bool
  | [], _ => true
  | _ :: _, [] => false
  | a :: as, b :: bs => if a = b then charListLe as bs else decide (a < b)

/-- `a.path.localeCompare(b.path) <= 0`, modelled code-point-wise. -/
def pathLe (a b : String) : Bool := charListLe a.data b.data

/-- `private sortCodePrompts(prompts, sortOrder)`: `filePath` sorts by
`localeCompare` on the display path, otherwise by ascending `index`
(`a.index - b.index`). -/
def sortCodePrompts (prompts : List CodePromptInfo) : SortOrder → List CodePromptInfo
  | .filePath => prompts.mergeSort (fun a b => pathLe a.path b.path)
  | .openingOrder => prompts.mergeSort (fun a b => a.index ≤ b.index)

/-- The per-item `CodePromptInfo`s of the code group, in item order. -/
def codeInfosOf (items : List PromptItem) : List CodePromptInfo :=
  items.map (fun it => formatCodeItem it (resolveContent it.content))

/-- The code group's infos after the sort policy is applied. -/
def sortedCodeInfos (items : List PromptItem) (so : SortOrder) : List CodePromptInfo :=
  sortCodePrompts (codeInfosOf items) so

/-- The `### Sources ###` section: outline of paths, then the full
contents, both following the sorted order. -/
def renderCodeSection (sorted : List CodePromptInfo) : String :=
  "### Sources ###\n\nOutlines:\n\n" ++
    String.intercalate "\n" (sorted.map (fun p => "- " ++ p.path)) ++
    "\n\nContent:\n\n" ++
    String.intercalate "\n\n" (sorted.map CodePromptInfo.prompt) ++ "\n\n"

/-- `private async formatCodeItems(items, sortOrder)`. -/
def formatCodeItems (items : List PromptItem) (so : SortOrder) : String :=
  renderCodeSection (sortedCodeInfos items so)

/-- `private groupItemsByType(items)`: the five disjoint groups. -/
structure GroupedItems where
  userInstructions : List PromptItem
  terminals : List PromptItem
  trees : List PromptItem
  gitDiffs : List PromptItem
  codeItems : List PromptItem

/-- The five `filter` calls of `groupItemsByType`. -/
def groupItemsByType (items : List PromptItem) : GroupedItems :=
  { userInstructions := items.filter (fun i => i.type = .userInstruction),
    terminals := items.filter (fun i => i.type = .terminal),
    trees := items.filter (fun i => i.type = .tree),
    gitDiffs := items.filter (fun i => i.type = .gitDiff),
    codeItems := items.filter (fun i => i.type = .file ∨ i.type = .snippet) }

/-- The fixed sentinel returned for an empty collection. -/
def emptySentinel : String := "没有选择任何文件或代码片段"

/-- `async generate(items, sortOrder)`: sentinel for an empty collection;
otherwise the five sections, pushed in the fixed order when their group is
non-empty, joined with `''` and trimmed. -/
def generate (items : List PromptItem) (so : SortOrder) : String :=
  if items.length = 0 then emptySentinel
  else
    let grouped := groupItemsByType items
    let sections : List String :=
      (if grouped.userInstructions.length > 0 then
        [formatUserInstructions grouped.userInstructions] else [])
      ++ (if grouped.terminals.length > 0 then
        [formatTerminals grouped.terminals] else [])
      ++ (if grouped.trees.length > 0 then
        [formatTrees grouped.trees] else [])
      ++ (if grouped.gitDiffs.length > 0 then
        [formatGitDiffs grouped.gitDiffs] else [])
      ++ (if grouped.codeItems.length > 0 then
        [formatCodeItems grouped.codeItems so] else [])
    jsTrim (String.join sections)

/-- The claim-side section combinator: a group renders its section exactly
when it is non-empty, and an empty group contributes nothing. -/
def sectionIfNonEmpty (fmt : List PromptItem → String) (group : List PromptItem) : String :=
  if group = [] then "" else fmt group

/-- C3: `generate` on an empty item list returns the fixed sentinel; on a
non-empty list the output is the concatenation (trimmed) of the per-kind
sections in the fixed order user-instruction → terminal → tree → git-diff
→ code, where a section is present exactly when its group is non-empty;
and each section string starts with its own heading. -/
theorem c3_section_structure (items : List PromptItem) (so : SortOrder) :
    generate [] so = emptySentinel ∧
    (items ≠ [] →
      generate items so =
        jsTrim
          (sectionIfNonEmpty formatUserInstructions (groupItemsByType items).userInstructions ++
            sectionIfNonEmpty formatTerminals (groupItemsByType items).terminals ++
            sectionIfNonEmpty formatTrees (groupItemsByType items).trees ++
            sectionIfNonEmpty formatGitDiffs (groupItemsByType items).gitDiffs ++
            sectionIfNonEmpty (fun l => formatCodeItems l so) (groupItemsByType items).codeItems)) ∧
    (∀ l, ∃ r, formatUserInstructions l = "### User Instructions ###" ++ r) ∧
    (∀ l, ∃ r, formatTerminals l = "### Terminal Output ###" ++ r) ∧
    (∀ l, ∃ r, formatTrees l = "### Folder Structure ###" ++ r) ∧
    (∀ l, ∃ r, formatGitDiffs l = "### Git Diff (--cached) ###" ++ r) ∧
    (∀ l so2, ∃ r, formatCodeItems l so2 = "### Sources ###" ++ r) := by
  refine ⟨rfl, ?_, ?_, ?_, ?_, ?_, ?_⟩
  · intro hne
    have hlen : ¬ items.length = 0 := by
      simpa [List.length_eq_zero] using hne
    unfold generate
    rw [if_neg hlen]
    by_cases h1 : (groupItemsByType items).userInstructions = [] <;>
    by_cases h2 : (groupItemsByType items).terminals = [] <;>
    by_cases h3 : (groupItemsByType items).trees = [] <;>
    by_cases h4 : (groupItemsByType items).gitDiffs = [] <;>
    by_cases h5 : (groupItemsByType items).codeItems = [] <;>
    simp [sectionIfNonEmpty, h1, h2, h3, h4, h5, String.join, List.length_pos,
      String.append_assoc]
  · intro l
    exact ⟨"\n\n" ++ concatMapStr (fun it => resolveContent it.content ++ "\n\n") l,
      by rw [formatUserInstructions, ← String.append_assoc]; rfl⟩
  · intro l
    exact ⟨"\n\n" ++ concatMapStr (fun it =>
        it.title ++ "\n```\n" ++ resolveContent it.content ++ "\n```\n\n") l,
      by rw [formatTerminals, ← String.append_assoc]; rfl⟩
  · intro l
    exact ⟨"\n\n" ++ concatMapStr (fun it =>
        it.title ++ "\n```\n" ++ resolveContent it.content ++ "\n```\n\n") l,
      by rw [formatTrees, ← String.append_assoc]; rfl⟩
  · intro l
    exact ⟨"\n\n" ++ concatMapStr (fun it =>
        it.title ++ "\n```diff\n" ++ resolveContent it.content ++ "\n```\n\n") l,
      by rw [formatGitDiffs, ← String.append_assoc]; rfl⟩
  · intro l so2
    refine ⟨"\n\nOutlines:\n\n" ++
      String.intercalate "\n" ((sortedCodeInfos l so2).map (fun p => "- " ++ p.path)) ++
      "\n\nContent:\n\n" ++
      String.intercalate "\n\n" ((sortedCodeInfos l so2).map CodePromptInfo.prompt) ++
      "\n\n", ?_⟩
    rw [formatCodeItems, renderCodeSection]
    simp only [← String.append_assoc]
    rfl

/-- Witness for C3: the section-structure equality at a one-item list. -/
theorem c3_section_structure_witness :
    generate [demoItemA] .openingOrder =
      jsTrim
        (sectionIfNonEmpty formatUserInstructions (groupItemsByType [demoItemA]).userInstructions ++
          sectionIfNonEmpty formatTerminals (groupItemsByType [demoItemA]).terminals ++
          sectionIfNonEmpty formatTrees (groupItemsByType [demoItemA]).trees ++
          sectionIfNonEmpty formatGitDiffs (groupItemsByType [demoItemA]).gitDiffs ++
          sectionIfNonEmpty (fun l => formatCodeItems l .openingOrder)
            (groupItemsByType [demoItemA]).codeItems) :=
  (c3_section_structure [demoItemA] .openingOrder).2.1 (by decide)

/-- Transitivity of the code-point comparison. -/
theorem charListLe_trans :
    ∀ (a b c : List Char), charListLe a b = true → charListLe b c = true →
      charListLe a c = true
  | [], _, _, _, _ => rfl
  | x :: xs, [], _, h1, _ => by simp [charListLe] at h1
  | x :: xs, y :: ys, [], _, h2 => by simp [charListLe] at h2
  | x :: xs, y :: ys, z :: zs, h1, h2 => by
    simp only [charListLe] at h1 h2 ⊢
    by_cases hxy : x = y
    · subst hxy
      by_cases hyz : x = z
      · subst hyz
        simp only [if_pos rfl] at h1 h2 ⊢
        exact charListLe_trans xs ys zs h1 h2
      · simp only [if_neg hyz] at h2 ⊢
        simpa using h2
    · by_cases hyz : y = z
      · subst hyz
        simp only [if_neg hxy] at h1 ⊢
        exact h1
      · simp only [if_neg hxy] at h1
        simp only [if_neg hyz] at h2
        have hxz : x < z := lt_trans (by simpa using h1) (by simpa using h2)
        have : ¬ x = z := ne_of_lt hxz
        simp [if_neg this, hxz]

/-- Totality of the code-point comparison. -/
theorem charListLe_total :
    ∀ (a b : List Char), (charListLe a b || charListLe b a) = true
  | [], _ => by simp [charListLe]
  | _ :: _, [] => by simp [charListLe]
  | x :: xs, y :: ys => by
    simp only [charListLe]
    by_cases hxy : x = y
    · subst hxy
      simpa using charListLe_total xs ys
    · have hyx : ¬ y = x := fun h => hxy h.symm
      rcases lt_or_gt_of_ne hxy with h | h
      · simp [if_neg hxy, if_neg hyx, h]
      · simp [if_neg hxy, if_neg hyx, h]

/-- C4: for every item list, the code-section entries emitted by
`formatCodeItems` follow `sortedCodeInfos`, which under `filePath` is in
non-decreasing code-point order of the display paths (snippets carry the
` (lines a-b)` suffix in their path) and under `openingOrder` is in
ascending order of the items' `index` fields. -/
theorem c4_sort_order (items : List PromptItem) :
    (∀ so, formatCodeItems items so = renderCodeSection (sortedCodeInfos items so)) ∧
    (sortedCodeInfos items .filePath).Pairwise (fun a b => pathLe a.path b.path = true) ∧
    (sortedCodeInfos items .openingOrder).Pairwise (fun a b => a.index ≤ b.index) := by
  refine ⟨fun so => rfl, ?_, ?_⟩
  · exact @List.sorted_mergeSort CodePromptInfo
      (fun a b : CodePromptInfo => pathLe a.path b.path)
      (fun a b c hab hbc => charListLe_trans a.path.data b.path.data c.path.data hab hbc)
      (fun a b => charListLe_total a.path.data b.path.data)
      (codeInfosOf items)
  · have h := @List.sorted_mergeSort CodePromptInfo
      (fun a b : CodePromptInfo => decide (a.index ≤ b.index))
      (fun a b c hab hbc => by
        simp only [decide_eq_true_eq] at hab hbc ⊢
        omega)
      (fun a b => by
        simp only [Bool.or_eq_true, decide_eq_true_eq]
        omega)
      (codeInfosOf items)
    have heq : (sortedCodeInfos items .openingOrder) =
        (codeInfosOf items).mergeSort (fun a b => decide (a.index ≤ b.index)) := rfl
    rw [heq]
    exact h.imp (fun hab => by simpa using hab)

/-- Two items that agree on every field except possibly the raw content,
whose resolutions agree.  Replacing an item by such an item cannot change
any rendered output. -/
def ResolvedEq (a b : PromptItem) : Prop :=
  a.id = b.id ∧ a.type = b.type ∧ a.title = b.title ∧ a.mode = b.mode ∧
  a.index = b.index ∧ a.filePath = b.filePath ∧ a.language = b.language ∧
  a.lineStart = b.lineStart ∧ a.lineEnd = b.lineEnd ∧
  resolveContent a.content = resolveContent b.content

theorem resolvedEq_refl (a : PromptItem) : ResolvedEq a a :=
  ⟨rfl, rfl, rfl, rfl, rfl, rfl, rfl, rfl, rfl, rfl⟩

theorem forall2_resolvedEq_filter (p : PromptItem → Bool)
    (hp : ∀ a b, ResolvedEq a b → p a = p b)
    {l l' : List PromptItem} (h : List.Forall₂ ResolvedEq l l') :
    List.Forall₂ ResolvedEq (l.filter p) (l'.filter p) := by
  induction h with
  | nil => simp
  | @cons a b l₁ l₂ hab _ ih =>
    rw [List.filter_cons, List.filter_cons, ← hp a b hab]
    cases hpa : p a with
    | true => simpa using List.Forall₂.cons hab ih
    | false => simpa using ih

theorem concatMapStr_congr (f : PromptItem → String)
    (hf : ∀ a b, ResolvedEq a b → f a = f b)
    {l l' : List PromptItem} (h : List.Forall₂ ResolvedEq l l') :
    concatMapStr f l = concatMapStr f l' := by
  induction h with
  | nil => rfl
  | @cons a b l₁ l₂ hab _ ih =>
    simp only [concatMapStr, hf a b hab, ih]

theorem formatCodeItem_congr {a b : PromptItem} (h : ResolvedEq a b) :
    formatCodeItem a (resolveContent a.content) =
      formatCodeItem b (resolveContent b.content) := by
  obtain ⟨_, hty, _, _, hidx, hfp, hlang, hls, hle, hc⟩ := h
  simp only [formatCodeItem, hty, hidx, hfp, hlang, hls, hle, hc]

theorem codeInfosOf_congr {l l' : List PromptItem}
    (h : List.Forall₂ ResolvedEq l l') : codeInfosOf l = codeInfosOf l' := by
  induction h with
  | nil => rfl
  | @cons a b l₁ l₂ hab _ ih =>
    simp only [codeInfosOf, List.map_cons] at ih ⊢
    rw [formatCodeItem_congr hab, ih]

/-- Rendering is a congruence for `ResolvedEq`: substituting
resolution-equivalent items leaves the generated document unchanged. -/
theorem generate_congr {l l' : List PromptItem}
    (h : List.Forall₂ ResolvedEq l l') (so : SortOrder) :
    generate l so = generate l' so := by
  have hlen := h.length_eq
  have hU := forall2_resolvedEq_filter (fun i => i.type = .userInstruction)
    (fun a b hab => by simp only [hab.2.1]) h
  have hT := forall2_resolvedEq_filter (fun i => i.type = .terminal)
    (fun a b hab => by simp only [hab.2.1]) h
  have hTr := forall2_resolvedEq_filter (fun i => i.type = .tree)
    (fun a b hab => by simp only [hab.2.1]) h
  have hG := forall2_resolvedEq_filter (fun i => i.type = .gitDiff)
    (fun a b hab => by simp only [hab.2.1]) h
  have hC := forall2_resolvedEq_filter (fun i => i.type = .file ∨ i.type = .snippet)
    (fun a b hab => by simp only [hab.2.1]) h
  have eU : formatUserInstructions (groupItemsByType l).userInstructions =
      formatUserInstructions (groupItemsByType l').userInstructions := by
    unfold formatUserInstructions groupItemsByType
    rw [concatMapStr_congr _ (fun a b hab => by rw [hab.2.2.2.2.2.2.2.2.2]) hU]
  have eT : formatTerminals (groupItemsByType l).terminals =
      formatTerminals (groupItemsByType l').terminals := by
    unfold formatTerminals groupItemsByType
    rw [concatMapStr_congr _
      (fun a b hab => by rw [hab.2.2.1, hab.2.2.2.2.2.2.2.2.2]) hT]
  have eTr : formatTrees (groupItemsByType l).trees =
      formatTrees (groupItemsByType l').trees := by
    unfold formatTrees groupItemsByType
    rw [concatMapStr_congr _
      (fun a b hab => by rw [hab.2.2.1, hab.2.2.2.2.2.2.2.2.2]) hTr]
  have eG : formatGitDiffs (groupItemsByType l).gitDiffs =
      formatGitDiffs (groupItemsByType l').gitDiffs := by
    unfold formatGitDiffs groupItemsByType
    rw [concatMapStr_congr _
      (fun a b hab => by rw [hab.2.2.1, hab.2.2.2.2.2.2.2.2.2]) hG]
  have eC : ∀ so2, formatCodeItems (groupItemsByType l).codeItems so2 =
      formatCodeItems (groupItemsByType l').codeItems so2 := by
    intro so2
    unfold formatCodeItems sortedCodeInfos groupItemsByType
    rw [codeInfosOf_congr hC]
  have lU : (groupItemsByType l).userInstructions.length =
      (groupItemsByType l').userInstructions.length := hU.length_eq
  have lT : (groupItemsByType l).terminals.length =
      (groupItemsByType l').terminals.length := hT.length_eq
  have lTr : (groupItemsByType l).trees.length =
      (groupItemsByType l').trees.length := hTr.length_eq
  have lG : (groupItemsByType l).gitDiffs.length =
      (groupItemsByType l').gitDiffs.length := hG.length_eq
  have lC : (groupItemsByType l).codeItems.length =
      (groupItemsByType l').codeItems.length := hC.length_eq
  unfold generate
  dsimp only
  rw [hlen, lU, lT, lTr, lG, lC, eU, eT, eTr, eG, eC so]

/-- C5: resolution fault isolation.  A rejecting producer is resolved to
the bracketed inline error marker, and replacing the failing item's
content by that marker as a static string leaves the assembled document
unchanged — every other item is rendered exactly as before, with the
marker inline at the failing item's place; `generate` itself is a total
function and never throws. -/
theorem c5_fault_isolation (items : List PromptItem) (so : SortOrder)
    (i : Nat) (hi : i < items.length) (msg : String)
    (hc : (items.get ⟨i, hi⟩).content = .generator (.error msg)) :
    resolveContent (items.get ⟨i, hi⟩).content = errMarker msg ∧
    generate items so =
      generate (items.set i
        { items.get ⟨i, hi⟩ with content := .str (errMarker msg) }) so := by
  constructor
  · rw [hc]; rfl
  · apply generate_congr
    rw [List.forall₂_iff_get]
    refine ⟨by simp, ?_⟩
    intro j h₁ h₂
    by_cases hj : j = i
    · subst hj
      have hset : (items.set j { items.get ⟨j, hi⟩ with
          content := .str (errMarker msg) }).get ⟨j, h₂⟩ =
          { items.get ⟨j, hi⟩ with content := .str (errMarker msg) } := by
        simp [List.get_eq_getElem, List.getElem_set]
      rw [hset]
      refine ⟨rfl, rfl, rfl, rfl, rfl, rfl, rfl, rfl, rfl, ?_⟩
      show resolveContent (items.get ⟨j, h₁⟩).content = _
      have : (items.get ⟨j, h₁⟩) = (items.get ⟨j, hi⟩) := rfl
      rw [this, hc]
      rfl
    · have hij : i ≠ j := fun h => hj h.symm
      have hset : (items.set i { items.get ⟨i, hi⟩ with
          content := .str (errMarker msg) }).get ⟨j, h₂⟩ = items.get ⟨j, h₁⟩ := by
        simp [List.get_eq_getElem, List.getElem_set, hij]
      rw [hset]
      exact resolvedEq_refl _

/-- A dynamic item whose producer rejects, for the C5 witness. -/
def demoItemErr : PromptItem :=
  { id := "e", type := .userInstruction, title := "E",
    content := .generator (.error "boom"), mode := .dynamic, index := 1,
    filePath := none, language := none, lineStart := none, lineEnd := none }

/-- Witness for C5 at a two-item list whose second producer rejects. -/
theorem c5_fault_isolation_witness :
    resolveContent ([demoItemA, demoItemErr].get ⟨1, by decide⟩).content =
      errMarker "boom" ∧
    generate [demoItemA, demoItemErr] .openingOrder =
      generate ([demoItemA, demoItemErr].set 1
        { [demoItemA, demoItemErr].get ⟨1, by decide⟩ with
          content := .str (errMarker "boom") }) .openingOrder :=
  c5_fault_isolation [demoItemA, demoItemErr] .openingOrder 1 (by decide) "boom" rfl

/-! ## UserInstructionProvider (src/providers/UserInstructionProvider.ts) -/

/-- `content.split('\n')`: the lines of a character list (a trailing or
leading newline yields an empty line, as in JavaScript). -/
def splitNl : List Char → List (List Char)
  | [] => [[]]
  | c :: cs =>
    if c = '\n' then [] :: splitNl cs
    else
      match splitNl cs with
      | [] => [[c]]
      | h :: t => (c :: h) :: t

/-- `split('\n')[0]` equals the characters before the first newline. -/
def firstLineChars (s : List Char) : List Char :=
  s.takeWhile (fun c => !(c = '\n'))

/-- `private generateTitle(content)`: first line (`split('\n')[0]`)
trimmed; if longer than 50 characters, the first 50 plus `...`; an empty
first line falls back to the default label `用户指令`. -/
def generateTitle (content : List Char) : List Char :=
  let firstLine := trimChars ((splitNl content).headD [])
  if firstLine.length > 50 then firstLine.take 50 ++ "...".data
  else if firstLine.isEmpty then "用户指令".data
  else firstLine

/-- `create()` after the input dialog produced `instruction` and the uuid
generator produced `newId`: the `!instruction` guard (cancel or empty
string ⇒ no item), `trim`, the empty-after-trim guard (warning shown, no
item created), then the item with the derived title. -/
def createUserInstruction (instruction newId : String) : Option PromptItem :=
  if instruction = "" then none
  else
    let trimmed := jsTrim instruction
    if trimmed = "" then none
    else some
      { id := newId, type := .userInstruction,
        title := String.mk (generateTitle trimmed.data),
        content := .str trimmed, index := 0, mode := .static,
        filePath := none, language := none, lineStart := none, lineEnd := none }

/-- Claim-side reading of the derived title: the first line with
non-whitespace content ("first non-empty line"), trimmed, truncated to 50
characters with an ellipsis when truncation occurred; the default label
when every line is blank. -/
def specTitle (text : List Char) : List Char :=
  match (splitNl text).find? (fun l => !(trimChars l).isEmpty) with
  | some l =>
    let t := trimChars l
    if t.length > 50 then t.take 50 ++ "...".data else t
  | none => "用户指令".data

/-- The trimmed first non-blank line (empty when all lines are blank),
used to relate `generateTitle` to the claim's wording. -/
def firstNonBlankTrim (s : List Char) : List Char :=
  (((splitNl s).find? (fun l => !(trimChars l).isEmpty)).map trimChars).getD []

theorem splitNl_ne_nil : ∀ (s : List Char), splitNl s ≠ []
  | [] => by simp [splitNl]
  | c :: cs => by
    simp only [splitNl]
    by_cases h : c = '\n'
    · simp [h]
    · simp only [if_neg h]
      cases hs : splitNl cs with
      | nil => simp
      | cons hh tt => simp

theorem splitNl_cons_nl (l : List Char) : splitNl ('\n' :: l) = [] :: splitNl l := by
  simp [splitNl]

theorem splitNl_cons_of_ne {c : Char} (h : ¬ c = '\n') {l : List Char}
    {hh : List Char} {tt : List (List Char)} (hs : splitNl l = hh :: tt) :
    splitNl (c :: l) = (c :: hh) :: tt := by
  simp [splitNl, h, hs]

theorem splitNl_headD : ∀ (s : List Char), (splitNl s).headD [] = firstLineChars s
  | [] => rfl
  | c :: cs => by
    simp only [splitNl, firstLineChars]
    by_cases h : c = '\n'
    · subst h
      simp [List.takeWhile_cons]
    · cases hs : splitNl cs with
      | nil => exact absurd hs (splitNl_ne_nil cs)
      | cons hh tt =>
        have ih := splitNl_headD cs
        rw [hs] at ih
        simp only [List.headD_cons] at ih
        simp only [if_neg h, List.headD_cons, List.takeWhile_cons, h,
          decide_False, Bool.not_false, if_true]
        simpa [firstLineChars] using ih

/-- Dropping leading whitespace then a further whitespace head is absurd. -/
theorem dropWhile_head_false (p : Char → Bool) :
    ∀ (l : List Char) {c : Char} {r : List Char},
      l.dropWhile p = c :: r → p c = false
  | [], c, r, h => by simp at h
  | a :: as, c, r, h => by
    by_cases ha : p a
    · rw [List.dropWhile_cons_of_pos ha] at h
      exact dropWhile_head_false p as h
    · rw [List.dropWhile_cons_of_neg ha] at h
      cases h
      simpa using ha

theorem trimR_eq_nil_iff :
    ∀ (l : List Char), trimR l = [] ↔ ∀ a ∈ l, isJsWhitespace a = true
  | [] => by simp [trimR]
  | c :: cs => by
    simp only [trimR]
    by_cases hr : trimR cs = []
    · by_cases hw : isJsWhitespace c
      · simp only [hr, List.isEmpty_nil, hw, Bool.and_true, if_pos rfl]
        constructor
        · intro _ a ha
          rcases List.mem_cons.mp ha with h | h
          · rw [h]; exact hw
          · exact (trimR_eq_nil_iff cs).mp hr a h
        · intro _; rfl
      · simp only [hr, List.isEmpty_nil, hw, Bool.and_false]
        simp only [Bool.false_eq_true, if_false]
        constructor
        · intro h; cases h
        · intro h
          exact absurd (h c (List.mem_cons_self c cs)) (by simpa using hw)
    · have : (trimR cs).isEmpty = false := by
        cases htr : trimR cs with
        | nil => exact absurd htr hr
        | cons x xs => rfl
      simp only [this, Bool.false_and]
      simp only [Bool.false_eq_true, if_false]
      constructor
      · intro h; cases h
      · intro h
        exact absurd ((trimR_eq_nil_iff cs).mpr
          (fun a ha => h a (List.mem_cons_of_mem c ha))) hr

theorem trimChars_cons_ws {c : Char} (hw : isJsWhitespace c = true)
    (l : List Char) : trimChars (c :: l) = trimChars l := by
  simp [trimChars, trimL, List.dropWhile_cons, hw]

theorem trimChars_all_ws {l : List Char}
    (h : ∀ a ∈ l, isJsWhitespace a = true) : trimChars l = [] := by
  have : trimL l = [] := by
    induction l with
    | nil => rfl
    | cons c cs ih =>
      simp only [trimL, List.dropWhile_cons, h c (List.mem_cons_self c cs)]
      exact ih (fun a ha => h a (List.mem_cons_of_mem c ha))
  simp [trimChars, this, trimR]

theorem trimChars_cons_not_ws {c : Char} (hw : isJsWhitespace c = false)
    (l : List Char) : trimChars (c :: l) = trimR (c :: l) := by
  simp [trimChars, trimL, List.dropWhile_cons, hw]

theorem trimR_cons_not_ws {c : Char} (hw : isJsWhitespace c = false)
    (l : List Char) : trimR (c :: l) = c :: trimR l := by
  simp only [trimR, hw, Bool.and_false]
  simp

theorem trimChars_cons_not_ws_ne_nil {c : Char} (hw : isJsWhitespace c = false)
    (l : List Char) : trimChars (c :: l) ≠ [] := by
  rw [trimChars_cons_not_ws hw, trimR_cons_not_ws hw]
  simp

theorem trimR_cons (c : Char) (l : List Char) :
    trimR (c :: l) =
      if (trimR l).isEmpty && isJsWhitespace c then [] else c :: trimR l := rfl

theorem trimR_cons_of_not {c : Char} {cs : List Char}
    (hca : ¬ (isJsWhitespace c = true ∧ trimR cs = [])) :
    trimR (c :: cs) = c :: trimR cs := by
  rcases not_and_or.mp hca with hw | hnil
  · exact trimR_cons_not_ws (by simpa using hw) cs
  · have hemp : (trimR cs).isEmpty = false := by
      cases htr : trimR cs with
      | nil => exact absurd htr hnil
      | cons _ _ => rfl
    rw [trimR_cons, hemp]
    simp

theorem firstLineChars_cons_nl (l : List Char) : firstLineChars ('\n' :: l) = [] := by
  simp [firstLineChars, List.takeWhile_cons]

theorem firstLineChars_cons_of_ne {c : Char} (h : ¬ c = '\n') (l : List Char) :
    firstLineChars (c :: l) = c :: firstLineChars l := by
  simp [firstLineChars, List.takeWhile_cons, h]

/-- Trimming trailing whitespace first does not change the trailing-trim of
the first line. -/
theorem trimR_ftl_trimR :
    ∀ (x : List Char), trimR (firstLineChars (trimR x)) = trimR (firstLineChars x)
  | [] => rfl
  | c :: cs => by
    by_cases hca : isJsWhitespace c = true ∧ trimR cs = []
    · obtain ⟨hw, hnil⟩ := hca
      have h1 : trimR (c :: cs) = [] := by
        rw [trimR_cons, hnil, hw]
        simp
      rw [h1]
      have hall : ∀ a ∈ c :: cs, isJsWhitespace a = true := by
        intro a ha
        rcases List.mem_cons.mp ha with h | h
        · rw [h]; exact hw
        · exact (trimR_eq_nil_iff cs).mp hnil a h
      have hflw : ∀ a ∈ firstLineChars (c :: cs), isJsWhitespace a = true :=
        fun a ha => hall a ((List.takeWhile_sublist _).mem ha)
      rw [(trimR_eq_nil_iff _).mpr hflw]
      rfl
    · have h1 : trimR (c :: cs) = c :: trimR cs := trimR_cons_of_not hca
      rw [h1]
      by_cases hnl : c = '\n'
      · subst hnl
        rw [firstLineChars_cons_nl, firstLineChars_cons_nl]
      · rw [firstLineChars_cons_of_ne hnl, firstLineChars_cons_of_ne hnl,
          trimR_cons, trimR_cons, trimR_ftl_trimR cs]

/-- Same as `trimR_ftl_trimR`, with the full two-sided trim. -/
theorem trimChars_ftl_trimR :
    ∀ (x : List Char),
      trimChars (firstLineChars (trimR x)) = trimChars (firstLineChars x)
  | [] => rfl
  | c :: cs => by
    by_cases hca : isJsWhitespace c = true ∧ trimR cs = []
    · obtain ⟨hw, hnil⟩ := hca
      have h1 : trimR (c :: cs) = [] := by
        rw [trimR_cons, hnil, hw]
        simp
      rw [h1]
      have hall : ∀ a ∈ c :: cs, isJsWhitespace a = true := by
        intro a ha
        rcases List.mem_cons.mp ha with h | h
        · rw [h]; exact hw
        · exact (trimR_eq_nil_iff cs).mp hnil a h
      have hflw : ∀ a ∈ firstLineChars (c :: cs), isJsWhitespace a = true :=
        fun a ha => hall a ((List.takeWhile_sublist _).mem ha)
      rw [trimChars_all_ws hflw]
      rfl
    · have h1 : trimR (c :: cs) = c :: trimR cs := trimR_cons_of_not hca
      rw [h1]
      by_cases hnl : c = '\n'
      · subst hnl
        rw [firstLineChars_cons_nl, firstLineChars_cons_nl]
      · rw [firstLineChars_cons_of_ne hnl, firstLineChars_cons_of_ne hnl]
        by_cases hw : isJsWhitespace c = true
        · rw [trimChars_cons_ws hw, trimChars_cons_ws hw, trimChars_ftl_trimR cs]
        · have hw' : isJsWhitespace c = false := by simpa using hw
          rw [trimChars_cons_not_ws hw', trimChars_cons_not_ws hw',
            trimR_cons, trimR_cons, trimR_ftl_trimR cs]

theorem find_nonblank_cons_pos {a : List Char} (l : List (List Char))
    (h : (trimChars a).isEmpty = false) :
    (a :: l).find? (fun x => !(trimChars x).isEmpty) = some a :=
  List.find?_cons_of_pos l (by rw [h]; rfl)

theorem find_nonblank_cons_neg {a : List Char} (l : List (List Char))
    (h : (trimChars a).isEmpty = true) :
    (a :: l).find? (fun x => !(trimChars x).isEmpty) =
      l.find? (fun x => !(trimChars x).isEmpty) :=
  List.find?_cons_of_neg l (by rw [h]; simp)

/-- Leading whitespace does not affect the trimmed first non-blank line. -/
theorem firstNonBlankTrim_trimL :
    ∀ (s : List Char), firstNonBlankTrim s = firstNonBlankTrim (trimL s)
  | [] => rfl
  | c :: cs => by
    by_cases hw : isJsWhitespace c = true
    · have htl : trimL (c :: cs) = trimL cs := by
        simp [trimL, List.dropWhile_cons, hw]
      rw [htl, ← firstNonBlankTrim_trimL cs]
      by_cases hnl : c = '\n'
      · subst hnl
        simp only [firstNonBlankTrim, splitNl_cons_nl]
        rw [find_nonblank_cons_neg _ (by rfl)]
      · cases hs : splitNl cs with
        | nil => exact absurd hs (splitNl_ne_nil cs)
        | cons hh tt =>
          simp only [firstNonBlankTrim, splitNl_cons_of_ne hnl hs, hs]
          by_cases hph : (trimChars hh).isEmpty = true
          · rw [find_nonblank_cons_neg _ (by rw [trimChars_cons_ws hw]; exact hph),
              find_nonblank_cons_neg _ hph]
          · have hph' : (trimChars hh).isEmpty = false := by
              simpa using hph
            rw [find_nonblank_cons_pos _ (by rw [trimChars_cons_ws hw]; exact hph'),
              find_nonblank_cons_pos _ hph']
            simp only [Option.map_some', Option.getD_some]
            rw [trimChars_cons_ws hw]
    · have htl : trimL (c :: cs) = c :: cs := by
        have hw' : isJsWhitespace c = false := by simpa using hw
        simp [trimL, List.dropWhile_cons, hw']
      rw [htl]

/-- On a list whose head is not whitespace, the first non-blank line is the
first line. -/
theorem firstNonBlankTrim_head_not_ws {c : Char} {cs : List Char}
    (hw : isJsWhitespace c = false) :
    firstNonBlankTrim (c :: cs) = trimChars (firstLineChars (c :: cs)) := by
  have hnl : ¬ c = '\n' := by
    intro h
    subst h
    simp [isJsWhitespace] at hw
  cases hs : splitNl cs with
  | nil => exact absurd hs (splitNl_ne_nil cs)
  | cons hh tt =>
    have hhd : hh = firstLineChars cs := by
      have := splitNl_headD cs
      rw [hs] at this
      simpa using this
    have hpos : (trimChars (c :: hh)).isEmpty = false := by
      have hne := trimChars_cons_not_ws_ne_nil hw hh
      cases htc : trimChars (c :: hh) with
      | nil => exact absurd htc hne
      | cons _ _ => rfl
    simp only [firstNonBlankTrim, splitNl_cons_of_ne hnl hs]
    rw [find_nonblank_cons_pos _ hpos]
    simp only [Option.map_some', Option.getD_some]
    rw [firstLineChars_cons_of_ne hnl, hhd]

/-- The source title derivation on the trimmed text agrees with the
claim's description on the raw text, whenever the trimmed text is
non-empty. -/
theorem generateTitle_eq_specTitle (s : List Char) (h : trimChars s ≠ []) :
    generateTitle (trimChars s) = specTitle s := by
  have hTR : trimChars s = trimR (trimL s) := rfl
  have hune : trimL s ≠ [] := by
    intro h0
    rw [hTR, h0] at h
    exact h rfl
  obtain ⟨c, cs, hc⟩ := List.exists_cons_of_ne_nil hune
  have hwc : isJsWhitespace c = false := dropWhile_head_false _ s hc
  have hnl : ¬ c = '\n' := by
    intro hcc
    subst hcc
    simp [isJsWhitespace] at hwc
  have e1 : trimChars ((splitNl (trimChars s)).headD []) =
      trimChars (firstLineChars (trimL s)) := by
    rw [hTR, splitNl_headD, trimChars_ftl_trimR]
  have e2 : firstNonBlankTrim s = trimChars (firstLineChars (trimL s)) := by
    rw [firstNonBlankTrim_trimL s, hc, firstNonBlankTrim_head_not_ws hwc]
  have ht_ne : trimChars (firstLineChars (trimL s)) ≠ [] := by
    rw [hc, firstLineChars_cons_of_ne hnl]
    exact trimChars_cons_not_ws_ne_nil hwc _
  cases hf : (splitNl s).find? (fun l => !(trimChars l).isEmpty) with
  | none =>
    have : firstNonBlankTrim s = [] := by simp [firstNonBlankTrim, hf]
    rw [e2] at this
    exact absurd this ht_ne
  | some l =>
    have hl : trimChars l = trimChars (firstLineChars (trimL s)) := by
      have : firstNonBlankTrim s = trimChars l := by simp [firstNonBlankTrim, hf]
      rw [← this, e2]
    have hemp : (trimChars (firstLineChars (trimL s))).isEmpty = false := by
      cases hte : trimChars (firstLineChars (trimL s)) with
      | nil => exact absurd hte ht_ne
      | cons _ _ => rfl
    simp only [specTitle, hf, generateTitle, e1, hl]
    by_cases hlen : (trimChars (firstLineChars (trimL s))).length > 50
    · simp [hlen]
    · simp [hlen, hemp]

/-- C9 counterexample: for an effectively-empty input ("   "), `create`
shows a warning and produces no item at all (`undefined`), so no item with
the default label is created. -/
theorem c9_counterexample : createUserInstruction "   " "id0" = none := by
  decide

/-- C9 (amended): when the dialog text trims to empty, user-instruction
creation fails and returns no item (the default label arises only from
`generateTitle` on an effectively-empty string, as in the edit flow);
otherwise the created item's title is the trimmed first non-blank line of
the text, truncated to 50 characters with an ellipsis appended when
truncation occurred, and its content is the trimmed text. -/
theorem c9_title (instruction newId : String) :
    (jsTrim instruction = "" → createUserInstruction instruction newId = none) ∧
    (jsTrim instruction ≠ "" → instruction ≠ "" →
      createUserInstruction instruction newId = some
        { id := newId, type := .userInstruction,
          title := String.mk (specTitle instruction.data),
          content := .str (jsTrim instruction), index := 0, mode := .static,
          filePath := none, language := none, lineStart := none,
          lineEnd := none } ∧
      generateTitle (jsTrim instruction).data = specTitle instruction.data) := by
  constructor
  · intro h0
    unfold createUserInstruction
    by_cases hi : instruction = ""
    · rw [if_pos hi]
    · rw [if_neg hi]
      simp [h0]
  · intro hne hi
    have hdata : trimChars instruction.data ≠ [] := by
      intro h0
      apply hne
      show String.mk (trimChars instruction.data) = ""
      rw [h0]
    have htitle : generateTitle (jsTrim instruction).data = specTitle instruction.data := by
      show generateTitle (trimChars instruction.data) = specTitle instruction.data
      exact generateTitle_eq_specTitle instruction.data hdata
    refine ⟨?_, htitle⟩
    unfold createUserInstruction
    rw [if_neg hi, if_neg hne]
    rw [htitle]

/-- Witness for C9 (amended) at the concrete input `"  hi\nworld  "`. -/
theorem c9_title_witness :
    createUserInstruction "  hi\nworld  " "u1" = some
      { id := "u1", type := .userInstruction,
        title := String.mk (specTitle "  hi\nworld  ".data),
        content := .str (jsTrim "  hi\nworld  "), index := 0, mode := .static,
        filePath := none, language := none, lineStart := none,
        lineEnd := none } ∧
    generateTitle (jsTrim "  hi\nworld  ").data = specTitle "  hi\nworld  ".data :=
  (c9_title "  hi\nworld  " "u1").2 (by decide) (by decide)

/-! ## A reference-semantics view of `getAll()` (claim C10)

`getAll()` returns `[...this.items]`: a *fresh array object* whose
elements are the very `PromptItem` objects held by the store.  To state
freshness and element aliasing, arrays and items are given explicit
addresses in two heaps; the store's internal array lives at address 0. -/

structure JsWorld where
  itemHeap : List PromptItem
  arrayHeap : List (List Nat)
deriving Repr

/-- The heap address of the store's private `items` array. -/
def storeArr : Nat := 0

/-- `getAll()`: allocate a fresh array holding the same element references
as the store's array, and return its address. -/
def getAllRef (w : JsWorld) : JsWorld × Nat :=
  ({ w with arrayHeap := w.arrayHeap ++ [w.arrayHeap.getD storeArr []] },
    w.arrayHeap.length)

/-- Caller-side surgery (insertion, removal, reordering, anything) on the
array object at address `a`. -/
def mutateArr (w : JsWorld) (a : Nat) (f : List Nat → List Nat) : JsWorld :=
  { w with arrayHeap := w.arrayHeap.set a (f (w.arrayHeap.getD a [])) }

/-- In-place mutation of a field of the item object at reference `r`. -/
def mutateItem (w : JsWorld) (r : Nat) (g : PromptItem → PromptItem) : JsWorld :=
  { w with itemHeap := w.itemHeap.set r (g (w.itemHeap.getD r default)) }

/-- The sequence stored in the array at address `a`, dereferenced. -/
def readArr (w : JsWorld) (a : Nat) : List PromptItem :=
  (w.arrayHeap.getD a []).map (fun r => w.itemHeap.getD r default)

/-- The store's item sequence as any store query (`getAll`, `getById`)
reads it. -/
def readStore (w : JsWorld) : List PromptItem := readArr w storeArr

/-- C10: `getAll()` hands back a fresh array object — its address is not
the store's, it reads back equal to the store's sequence, and arbitrary
caller surgery on it leaves the store's sequence untouched — while its
elements are the store's own objects: the fresh array holds identical
references, and an in-place mutation of the item at a shared reference is
observable through subsequent store reads. -/
theorem c10_getAll_freshness (w : JsWorld) (hw : w.arrayHeap ≠ [])
    (f : List Nat → List Nat) (r : Nat) (hr : r < w.itemHeap.length)
    (g : PromptItem → PromptItem) :
    (getAllRef w).2 ≠ storeArr ∧
    (getAllRef w).1.arrayHeap.getD (getAllRef w).2 [] =
      w.arrayHeap.getD storeArr [] ∧
    readArr (getAllRef w).1 (getAllRef w).2 = readStore w ∧
    readStore (mutateArr (getAllRef w).1 (getAllRef w).2 f) = readStore w ∧
    readStore (mutateItem w r g) =
      (w.arrayHeap.getD storeArr []).map
        (fun x => if x = r then g (w.itemHeap.getD r default)
          else w.itemHeap.getD x default) := by
  have hlen : 0 < w.arrayHeap.length := List.length_pos.mpr hw
  have hlen' : storeArr < w.arrayHeap.length := by
    simpa [storeArr] using hlen
  have hne : w.arrayHeap.length ≠ storeArr := by
    simp only [storeArr]
    omega
  have hfresh : (w.arrayHeap ++ [w.arrayHeap.getD storeArr []]).getD
      w.arrayHeap.length [] = w.arrayHeap.getD storeArr [] := by
    simp only [List.getD_eq_getElem?_getD]
    rw [List.getElem?_append_right (Nat.le_refl _)]
    simp
  have hgetfresh : (getAllRef w).1.arrayHeap.getD (getAllRef w).2 [] =
      w.arrayHeap.getD storeArr [] := hfresh
  refine ⟨hne, hgetfresh, ?_, ?_, ?_⟩
  · simp only [readStore, readArr, getAllRef]
    rw [hfresh]
  · simp only [readStore, readArr, mutateArr, getAllRef]
    have hset : ((w.arrayHeap ++ [w.arrayHeap.getD storeArr []]).set w.arrayHeap.length
        (f ((w.arrayHeap ++ [w.arrayHeap.getD storeArr []]).getD w.arrayHeap.length
          []))).getD storeArr [] = w.arrayHeap.getD storeArr [] := by
      simp only [List.getD_eq_getElem?_getD]
      rw [List.getElem?_set_ne hne, List.getElem?_append_left hlen']
    rw [hset]
  · simp only [readStore, readArr, mutateItem]
    apply List.map_congr_left
    intro x _
    by_cases hx : x = r
    · subst hx
      simp only [if_pos rfl, List.getD_eq_getElem?_getD,
        List.getElem?_set_self hr]
      rfl
    · simp only [if_neg hx, List.getD_eq_getElem?_getD,
        List.getElem?_set_ne (fun h => hx h.symm)]

/-- A concrete world for the C10 witness: one item, the store's array
holding the single reference 0. -/
def demoWorld : JsWorld := { itemHeap := [demoItemA], arrayHeap := [[0]] }

/-- Witness for C10 at `demoWorld`, with a deleting array surgery and a
title-changing element mutation. -/
theorem c10_getAll_freshness_witness :
    (getAllRef demoWorld).2 ≠ storeArr ∧
    (getAllRef demoWorld).1.arrayHeap.getD (getAllRef demoWorld).2 [] =
      demoWorld.arrayHeap.getD storeArr [] ∧
    readArr (getAllRef demoWorld).1 (getAllRef demoWorld).2 = readStore demoWorld ∧
    readStore (mutateArr (getAllRef demoWorld).1 (getAllRef demoWorld).2
      (fun _ => [])) = readStore demoWorld ∧
    readStore (mutateItem demoWorld 0 (fun it => { it with title := "X" })) =
      (demoWorld.arrayHeap.getD storeArr []).map
        (fun x => if x = 0 then
          (fun it => { it with title := "X" }) (demoWorld.itemHeap.getD 0 default)
          else demoWorld.itemHeap.getD x default) :=
  c10_getAll_freshness demoWorld (by decide) (fun _ => []) 0 (by decide)
    (fun it => { it with title := "X" })

/-! ## IgnoreService glob matching (`matchGlobPattern`)

The implementation converts a glob into a JavaScript regex by a chain of
`String.replace` passes and tests it with the `i` flag anchored as
`^...$`.  Each pass is modelled as a scan over the character list; the
regex fragment that can result is parsed into atoms whose matching
semantics (`.*`, `[^/]*`, `[^/]`, case-insensitive literals, full match)
is given by `matchAtoms`. -/

/-- The characters escaped by `replace(/[.+^$\x7b\x7d()|[\]\\]/g, '\\$&')`. -/
def isRegexSpecial (c : Char) : Bool :=
  c = '.' ∨ c = '+' ∨ c = '^' ∨ c = '$' ∨ c = '\x7b' ∨ c = '\x7d' ∨ c = '(' ∨
    c = ')' ∨ c = '|' ∨ c = '[' ∨ c = ']' ∨ c = '\\'

/-- Pass 1: escape regex metacharacters (`'\\$&'`). -/
def escapeSpecials : List Char → List Char
  | [] => []
  | c :: cs => (if isRegexSpecial c then ['\\', c] else [c]) ++ escapeSpecials cs

/-- The `<<<GLOBSTAR>>>` placeholder. -/
def globStarToken : List Char :=
  ['<', '<', '<', 'G', 'L', 'O', 'B', 'S', 'T', 'A', 'R', '>', '>', '>']

/-- Pass 2: `replace(/\*\*/g, '<<<GLOBSTAR>>>')` — leftmost,
non-overlapping. -/
def replaceStarStar : List Char → List Char
  | [] => []
  | [c] => [c]
  | c :: d :: cs =>
    if c = '*' ∧ d = '*' then globStarToken ++ replaceStarStar cs
    else c :: replaceStarStar (d :: cs)

/-- Pass 3: `replace(/\*/g, '[^/]*')`. -/
def replaceStar : List Char → List Char
  | [] => []
  | c :: cs => (if c = '*' then ['[', '^', '/', ']', '*'] else [c]) ++ replaceStar cs

/-- Pass 4: `replace(/\?/g, '[^/]')`. -/
def replaceQmark : List Char → List Char
  | [] => []
  | c :: cs => (if c = '?' then ['[', '^', '/', ']'] else [c]) ++ replaceQmark cs

/-- Pass 5, fuelled: scan for the fourteen-character placeholder and
replace each occurrence by `.*`.  The fuel only bounds recursion depth and
is irrelevant once it covers the list length. -/
def rplhAux : Nat → List Char → List Char
  | _, [] => []
  | 0, l => l
  | Nat.succ n, c :: cs =>
    if globStarToken.isPrefixOf (c :: cs) then
      '.' :: '*' :: rplhAux n ((c :: cs).drop 14)
    else c :: rplhAux n cs

/-- Pass 5: `replace(/<<<GLOBSTAR>>>/g, '.*')` — the fourteen-character
placeholder is replaced wherever it occurs. -/
def replaceGlobStarToken (l : List Char) : List Char := rplhAux l.length l

/-- The first four passes (everything before the placeholder
substitution). -/
def midGlob (pattern : List Char) : List Char :=
  replaceQmark (replaceStar (replaceStarStar (escapeSpecials pattern)))

/-- The full `glob → regex source` conversion of `matchGlobPattern`. -/
def globToRegex (pattern : List Char) : List Char :=
  replaceGlobStarToken (midGlob pattern)

/-- The atoms a generated regex consists of. -/
inductive GlobAtom where
  | anyRun
  | nonSepRun
  | nonSepOne
  | lit (c : Char)
deriving DecidableEq, Repr

/-- Parser for the generated regex source, fuelled like `rplhAux`:
recognise `[^/]*`, `[^/]`, `.*`, an escaped character, and plain literal
characters. -/
def parseAux : Nat → List Char → List GlobAtom
  | _, [] => []
  | 0, _ => []
  | Nat.succ n, c :: cs =>
    if c = '[' ∧ cs.take 3 = ['^', '/', ']'] then
      if (cs.drop 3).head? = some '*' then GlobAtom.nonSepRun :: parseAux n (cs.drop 4)
      else GlobAtom.nonSepOne :: parseAux n (cs.drop 3)
    else if c = '.' ∧ cs.head? = some '*' then
      GlobAtom.anyRun :: parseAux n (cs.drop 1)
    else if c = '\\' then
      match cs with
      | d :: cs2 => GlobAtom.lit d :: parseAux n cs2
      | [] => [GlobAtom.lit c]
    else GlobAtom.lit c :: parseAux n cs

/-- Parse the generated regex source back into atoms. -/
def parseRegex (l : List Char) : List GlobAtom := parseAux l.length l

/-- Case-insensitive character comparison: the regex `i` flag, modelled
by ASCII case folding (`Char.toLower`).  Host engines additionally fold
non-ASCII case pairs through Unicode tables; like the collation of
`localeCompare`, those tables are outside this embedding, which fixes the
definite ASCII folding the flag guarantees. -/
def ciEq (a b : Char) : Bool := a.toLower = b.toLower

/-- The JavaScript line terminators, which `.` does not match when the
`s` flag is absent: U+000A, U+000D, U+2028, U+2029. -/
def isLineTerminator (c : Char) : Bool :=
  c = '\n' ∨ c = '\r' ∨ c = '\u2028' ∨ c = '\u2029'

/-- The suffixes reachable by consuming only characters that the dot
matches — `.` without the `s` flag excludes line terminators — i.e. the
splits `.*` may leave. -/
def dotSuffixesOf : List Char → List (List Char)
  | [] => [[]]
  | c :: s => (c :: s) :: (if isLineTerminator c then [] else dotSuffixesOf s)

/-- The suffixes reachable by consuming only non-separator characters
(the splits `[^/]*` may leave; the negated class does match line
terminators). -/
def nonSepSuffixesOf : List Char → List (List Char)
  | [] => [[]]
  | c :: s => (c :: s) :: (if c = '/' then [] else nonSepSuffixesOf s)

/-- Anchored (`^...$`) matching of an atom list against a name: `.*`
consumes any run free of line terminators, `[^/]*` and `[^/]` consume
anything but the separator (including line terminators), literals compare
case-insensitively. -/
def matchAtoms : List GlobAtom → List Char → Bool
  | [], [] => true
  | [], _ :: _ => false
  | .anyRun :: ts, s => (dotSuffixesOf s).any (fun s' => matchAtoms ts s')
  | .nonSepRun :: ts, s => (nonSepSuffixesOf s).any (fun s' => matchAtoms ts s')
  | .nonSepOne :: _, [] => false
  | .nonSepOne :: ts, c :: s => !(c = '/') && matchAtoms ts s
  | .lit _ :: _, [] => false
  | .lit a :: ts, c :: s => ciEq a c && matchAtoms ts s

/-- `new RegExp(`^...$`, 'i').test(name)` for the converted pattern. -/
def matchGlobRegex (name pattern : List Char) : Bool :=
  matchAtoms (parseRegex (globToRegex pattern)) name

/-- `private matchGlobPattern(name, pattern, isDirectory)`: a pattern
ending in `/` only applies to directories and is matched with the slash
stripped; then the glob is converted and tested anchored,
case-insensitively. -/
def matchGlobPattern (name pattern : List Char) (isDirectory : Bool) : Bool :=
  if pattern.getLast? = some '/' then
    if isDirectory = false then false
    else matchGlobRegex name pattern.dropLast
  else matchGlobRegex name pattern

/-- Claim-side tokenisation of the glob itself: `**` a run of any
characters free of line terminators (separators included), `*` a
non-separator run, `?` one non-separator character, everything else a
literal. -/
def specGlobTokens : List Char → List GlobAtom
  | [] => []
  | [c] =>
    if c = '*' then [GlobAtom.nonSepRun]
    else if c = '?' then [GlobAtom.nonSepOne]
    else [GlobAtom.lit c]
  | c :: d :: cs =>
    if c = '*' ∧ d = '*' then GlobAtom.anyRun :: specGlobTokens cs
    else if c = '*' then GlobAtom.nonSepRun :: specGlobTokens (d :: cs)
    else if c = '?' then GlobAtom.nonSepOne :: specGlobTokens (d :: cs)
    else GlobAtom.lit c :: specGlobTokens (d :: cs)

/-- The claim-side glob semantics: whole-name, case-insensitive matching
of the tokenised pattern (via the shared atom matcher, so `**` stops at
line terminators exactly as the compiled `.*` does), with trailing-slash
patterns restricted to directories. -/
def specGlobMatch (name pattern : List Char) (isDirectory : Bool) : Bool :=
  if pattern.getLast? = some '/' then
    if isDirectory = false then false
    else matchAtoms (specGlobTokens pattern.dropLast) name
  else matchAtoms (specGlobTokens pattern) name

/-- Whether the pattern contains the literal placeholder
`<<<GLOBSTAR>>>` (the implementation treats such text as `**`). -/
def hasToken : List Char → Bool
  | [] => false
  | c :: cs => globStarToken.isPrefixOf (c :: cs) || hasToken cs

/-- A character the conversion passes leave untouched. -/
def inertChar (c : Char) : Bool :=
  !(isRegexSpecial c) && !(c = '*') && !(c = '?')

theorem rss_cons_ne_star {c : Char} (hc : ¬ c = '*') (X : List Char) :
    replaceStarStar (c :: X) = c :: replaceStarStar X := by
  cases X with
  | nil => rfl
  | cons d ds => simp [replaceStarStar, hc]

theorem rss_star_cons {X : List Char} (hX : X.head? ≠ some '*') :
    replaceStarStar ('*' :: X) = '*' :: replaceStarStar X := by
  cases X with
  | nil => rfl
  | cons d ds =>
    have hd : ¬ d = '*' := by
      intro h
      exact hX (by rw [h]; rfl)
    simp [replaceStarStar, hd]

theorem rs_append (a b : List Char) :
    replaceStar (a ++ b) = replaceStar a ++ replaceStar b := by
  induction a with
  | nil => rfl
  | cons c cs ih => simp [replaceStar, ih]

theorem rq_append (a b : List Char) :
    replaceQmark (a ++ b) = replaceQmark a ++ replaceQmark b := by
  induction a with
  | nil => rfl
  | cons c cs ih => simp [replaceQmark, ih]

theorem esc_head_ne_star {cs : List Char} (h : cs.head? ≠ some '*') :
    (escapeSpecials cs).head? ≠ some '*' := by
  cases cs with
  | nil => simp [escapeSpecials]
  | cons d ds =>
    by_cases hd : isRegexSpecial d
    · simp [escapeSpecials, hd]
    · have : d ≠ '*' := by
        intro hh
        exact h (by rw [hh]; rfl)
      simp [escapeSpecials, hd, this]

/-- `midGlob` on `**`: the placeholder is inserted. -/
theorem mid_starstar (cs : List Char) :
    midGlob ('*' :: '*' :: cs) = globStarToken ++ midGlob cs := by
  unfold midGlob
  have he : escapeSpecials ('*' :: '*' :: cs) = '*' :: '*' :: escapeSpecials cs := by
    simp [escapeSpecials, isRegexSpecial]
  rw [he]
  have h2 : replaceStarStar ('*' :: '*' :: escapeSpecials cs) =
      globStarToken ++ replaceStarStar (escapeSpecials cs) := by
    simp [replaceStarStar]
  rw [h2, rs_append, rq_append]
  have h3 : replaceStar globStarToken = globStarToken := by decide
  have h4 : replaceQmark globStarToken = globStarToken := by decide
  rw [h3, h4]

/-- `midGlob` on a lone `*`: the `[^/]*` fragment. -/
theorem mid_star {cs : List Char} (h : cs.head? ≠ some '*') :
    midGlob ('*' :: cs) = '[' :: '^' :: '/' :: ']' :: '*' :: midGlob cs := by
  unfold midGlob
  have he : escapeSpecials ('*' :: cs) = '*' :: escapeSpecials cs := by
    simp [escapeSpecials, isRegexSpecial]
  rw [he, rss_star_cons (esc_head_ne_star h)]
  have h2 : replaceStar ('*' :: replaceStarStar (escapeSpecials cs)) =
      ['[', '^', '/', ']', '*'] ++ replaceStar (replaceStarStar (escapeSpecials cs)) := by
    simp [replaceStar]
  rw [h2, rq_append]
  rfl

/-- `midGlob` on `?`: the `[^/]` fragment. -/
theorem mid_qmark (cs : List Char) :
    midGlob ('?' :: cs) = '[' :: '^' :: '/' :: ']' :: midGlob cs := by
  unfold midGlob
  have he : escapeSpecials ('?' :: cs) = '?' :: escapeSpecials cs := by
    simp [escapeSpecials, isRegexSpecial]
  rw [he, rss_cons_ne_star (by decide)]
  have h2 : replaceStar ('?' :: replaceStarStar (escapeSpecials cs)) =
      '?' :: replaceStar (replaceStarStar (escapeSpecials cs)) := by
    simp [replaceStar]
  rw [h2]
  simp [replaceQmark]

/-- `midGlob` on an escaped metacharacter. -/
theorem mid_special {c : Char} (hsp : isRegexSpecial c = true) (cs : List Char) :
    midGlob (c :: cs) = '\\' :: c :: midGlob cs := by
  have hcs : ¬ c = '*' := by
    intro h
    subst h
    simp [isRegexSpecial] at hsp
  have hcq : ¬ c = '?' := by
    intro h
    subst h
    simp [isRegexSpecial] at hsp
  unfold midGlob
  have he : escapeSpecials (c :: cs) = '\\' :: c :: escapeSpecials cs := by
    simp [escapeSpecials, hsp]
  rw [he, rss_cons_ne_star (by decide), rss_cons_ne_star hcs]
  have h2 : replaceStar ('\\' :: c :: replaceStarStar (escapeSpecials cs)) =
      '\\' :: c :: replaceStar (replaceStarStar (escapeSpecials cs)) := by
    simp [replaceStar, hcs]
  rw [h2]
  simp [replaceQmark, hcq]

/-- `midGlob` on a plain character. -/
theorem mid_plain {c : Char} (hsp : isRegexSpecial c = false)
    (hcs : ¬ c = '*') (hcq : ¬ c = '?') (cs : List Char) :
    midGlob (c :: cs) = c :: midGlob cs := by
  unfold midGlob
  have he : escapeSpecials (c :: cs) = c :: escapeSpecials cs := by
    simp [escapeSpecials, hsp]
  rw [he, rss_cons_ne_star hcs]
  have h2 : replaceStar (c :: replaceStarStar (escapeSpecials cs)) =
      c :: replaceStar (replaceStarStar (escapeSpecials cs)) := by
    simp [replaceStar, hcs]
  rw [h2]
  simp [replaceQmark, hcq]

/-- The fuel of `rplhAux` is irrelevant once it covers the length. -/
theorem rplhAux_fuel :
    ∀ (n m : Nat) (l : List Char), l.length ≤ n → l.length ≤ m →
      rplhAux n l = rplhAux m l := by
  intro n
  induction n with
  | zero =>
    intro m l h1 _
    have : l = [] := List.length_eq_zero.mp (Nat.le_zero.mp h1)
    subst this
    cases m <;> rfl
  | succ n' ih =>
    intro m l h1 h2
    cases l with
    | nil => cases m <;> rfl
    | cons c cs =>
      cases m with
      | zero => simp at h2
      | succ m' =>
        simp only [rplhAux]
        by_cases hp : globStarToken.isPrefixOf (c :: cs)
        · rw [if_pos hp, if_pos hp]
          have hd : ((c :: cs).drop 14).length ≤ n' := by
            simp only [List.length_drop, List.length_cons]
            simp only [List.length_cons] at h1
            omega
          have hd2 : ((c :: cs).drop 14).length ≤ m' := by
            simp only [List.length_drop, List.length_cons]
            simp only [List.length_cons] at h2
            omega
          rw [ih m' _ hd hd2]
        · rw [if_neg hp, if_neg hp]
          have hc1 : cs.length ≤ n' := by
            simp only [List.length_cons] at h1
            omega
          have hc2 : cs.length ≤ m' := by
            simp only [List.length_cons] at h2
            omega
          rw [ih m' cs hc1 hc2]

/-- The placeholder at the head is replaced by `.*`. -/
theorem rplh_token_append (Z : List Char) :
    replaceGlobStarToken (globStarToken ++ Z) =
      '.' :: '*' :: replaceGlobStarToken Z := by
  unfold replaceGlobStarToken
  have hlen : (globStarToken ++ Z).length = Nat.succ (13 + Z.length) := by
    simp [globStarToken]
    omega
  rw [hlen]
  have hcons : globStarToken ++ Z =
      '<' :: ('<' :: '<' :: 'G' :: 'L' :: 'O' :: 'B' :: 'S' :: 'T' :: 'A' :: 'R' ::
        '>' :: '>' :: '>' :: Z) := rfl
  rw [hcons]
  simp only [rplhAux]
  rw [if_pos (by
    rw [← hcons]
    exact List.isPrefixOf_iff_prefix.mpr (List.prefix_append _ _))]
  have hdrop : ('<' :: ('<' :: '<' :: 'G' :: 'L' :: 'O' :: 'B' :: 'S' :: 'T' :: 'A' :: 'R' ::
      '>' :: '>' :: '>' :: Z)).drop 14 = Z := rfl
  rw [hdrop, rplhAux_fuel (13 + Z.length) Z.length Z (by omega) (Nat.le_refl _)]

/-- A head that does not open the placeholder is copied. -/
theorem rplh_cons_not_token {c : Char} {X : List Char}
    (h : ¬ globStarToken <+: (c :: X)) :
    replaceGlobStarToken (c :: X) = c :: replaceGlobStarToken X := by
  unfold replaceGlobStarToken
  simp only [List.length_cons]
  simp only [rplhAux]
  rw [if_neg (fun hp => h (List.isPrefixOf_iff_prefix.mp hp))]

theorem rplh_cons_ne {c : Char} (hc : ¬ c = '<') (X : List Char) :
    replaceGlobStarToken (c :: X) = c :: replaceGlobStarToken X := by
  apply rplh_cons_not_token
  intro hpre
  rw [show globStarToken = '<' :: globStarToken.tail from rfl,
    List.cons_prefix_cons] at hpre
  exact hc hpre.1.symm

/-- The regex source each atom renders to (escaped literal for
metacharacters). -/
def renderAtoms : List GlobAtom → List Char
  | [] => []
  | GlobAtom.anyRun :: ts => '.' :: '*' :: renderAtoms ts
  | GlobAtom.nonSepRun :: ts => '[' :: '^' :: '/' :: ']' :: '*' :: renderAtoms ts
  | GlobAtom.nonSepOne :: ts => '[' :: '^' :: '/' :: ']' :: renderAtoms ts
  | GlobAtom.lit c :: ts =>
    (if isRegexSpecial c then ['\\', c] else [c]) ++ renderAtoms ts

theorem st_starstar (cs : List Char) :
    specGlobTokens ('*' :: '*' :: cs) = GlobAtom.anyRun :: specGlobTokens cs := by
  simp [specGlobTokens]

theorem st_star_cons {X : List Char} (h : X.head? ≠ some '*') :
    specGlobTokens ('*' :: X) = GlobAtom.nonSepRun :: specGlobTokens X := by
  cases X with
  | nil => simp [specGlobTokens]
  | cons d ds =>
    have hd : ¬ d = '*' := by
      intro hh
      exact h (by rw [hh]; rfl)
    simp [specGlobTokens, hd]

theorem st_qmark (X : List Char) :
    specGlobTokens ('?' :: X) = GlobAtom.nonSepOne :: specGlobTokens X := by
  cases X with
  | nil => simp [specGlobTokens]
  | cons d ds => simp [specGlobTokens]

theorem st_lit {c : Char} (hc : ¬ c = '*') (hq : ¬ c = '?') (X : List Char) :
    specGlobTokens (c :: X) = GlobAtom.lit c :: specGlobTokens X := by
  cases X with
  | nil => simp [specGlobTokens, hc, hq]
  | cons d ds => simp [specGlobTokens, hc, hq]

/-- The property of a string that makes the placeholder scan step over it
and makes it unable to open at a replaced fragment: every suffix is made
of inert characters and never begins the placeholder. -/
def goodTail (t : List Char) : Prop :=
  ∀ u, u <:+ t → u ≠ [] →
    (∀ a ∈ u, inertChar a = true) ∧ ∀ Z, ¬ u <+: globStarToken ++ Z

theorem goodTail_tail {a : Char} {t : List Char} (h : goodTail (a :: t)) :
    goodTail t :=
  fun u hu hne => h u (hu.trans (List.suffix_cons a t)) hne

/-- The conversion passes before the placeholder substitution preserve
prefixes made of inert characters that cannot open the placeholder. -/
theorem prefix_transfer (cs : List Char) :
    ∀ (t : List Char), goodTail t → ((t <+: midGlob cs) ↔ (t <+: cs)) := by
  induction cs with
  | nil =>
    intro t _
    rw [show midGlob [] = [] from rfl]
  | cons c ds ih =>
    intro t ht
    cases t with
    | nil => simp
    | cons a t' =>
      have hprops := ht (a :: t') (List.suffix_refl _) (by simp)
      have hinert : inertChar a = true := hprops.1 a (List.mem_cons_self a t')
      have hansp : isRegexSpecial a = false := by
        simp only [inertChar, Bool.and_eq_true, Bool.not_eq_eq_eq_not,
          Bool.not_true] at hinert
        exact hinert.1.1
      have hastar : ¬ a = '*' := by
        simp only [inertChar, Bool.and_eq_true] at hinert
        simpa using hinert.1.2
      have haq : ¬ a = '?' := by
        simp only [inertChar, Bool.and_eq_true] at hinert
        simpa using hinert.2
      by_cases hcstar : c = '*'
      · subst hcstar
        rcases hds : ds.head? with _ | d
        · have hdsnil : ds = [] := by
            cases ds with
            | nil => rfl
            | cons x xs => simp at hds
          subst hdsnil
          rw [mid_star (by simp)]
          apply iff_of_false
          · intro hpre
            rw [List.cons_prefix_cons] at hpre
            exact absurd hpre.1 (by
              intro hh
              subst hh
              simp [inertChar, isRegexSpecial] at hinert)
          · intro hpre
            rw [List.cons_prefix_cons] at hpre
            exact hastar hpre.1
        · by_cases hdstar : d = '*'
          · subst hdstar
            obtain ⟨ds2, hds2⟩ : ∃ ds2, ds = '*' :: ds2 := by
              cases ds with
              | nil => simp at hds
              | cons x xs =>
                simp only [List.head?_cons, Option.some_inj] at hds
                exact ⟨xs, by rw [hds]⟩
            subst hds2
            rw [mid_starstar]
            apply iff_of_false
            · exact hprops.2 (midGlob ds2)
            · intro hpre
              rw [List.cons_prefix_cons] at hpre
              exact hastar hpre.1
          · rw [mid_star (by rw [hds]; simpa using hdstar)]
            apply iff_of_false
            · intro hpre
              rw [List.cons_prefix_cons] at hpre
              exact absurd hpre.1 (by
                intro hh
                subst hh
                simp [inertChar, isRegexSpecial] at hinert)
            · intro hpre
              rw [List.cons_prefix_cons] at hpre
              exact hastar hpre.1
      · by_cases hcq : c = '?'
        · subst hcq
          rw [mid_qmark]
          apply iff_of_false
          · intro hpre
            rw [List.cons_prefix_cons] at hpre
            exact absurd hpre.1 (by
              intro hh
              subst hh
              simp [inertChar, isRegexSpecial] at hinert)
          · intro hpre
            rw [List.cons_prefix_cons] at hpre
            exact haq hpre.1
        · by_cases hcsp : isRegexSpecial c = true
          · rw [mid_special hcsp]
            apply iff_of_false
            · intro hpre
              rw [List.cons_prefix_cons] at hpre
              exact absurd hpre.1 (by
                intro hh
                subst hh
                simp [inertChar, isRegexSpecial] at hinert)
            · intro hpre
              rw [List.cons_prefix_cons] at hpre
              have : isRegexSpecial a = true := hpre.1 ▸ hcsp
              rw [hansp] at this
              cases this
          · rw [mid_plain (by simpa using hcsp) hcstar hcq]
            rw [List.cons_prefix_cons, List.cons_prefix_cons]
            exact and_congr_right fun _ => ih t' (goodTail_tail ht)

/-- Every non-empty suffix of the placeholder's tail is inert and never
opens a fresh placeholder. -/
theorem goodTail_tokenTail : goodTail globStarToken.tail := by
  intro u hu hne
  simp only [globStarToken, List.tail_cons] at hu
  simp only [List.suffix_cons_iff, List.suffix_nil] at hu
  rcases hu with h|h|h|h|h|h|h|h|h|h|h|h|h|h <;> subst h
  all_goals
    first
    | exact absurd rfl hne
    | (refine ⟨by decide, fun Z hpre => ?_⟩
       simp only [globStarToken, List.cons_append, List.cons_prefix_cons] at hpre
       simp at hpre)

/-- `hasToken` is monotone under dropping the head. -/
theorem hasToken_cons_false {c : Char} {cs : List Char}
    (h : hasToken (c :: cs) = false) :
    globStarToken.isPrefixOf (c :: cs) = false ∧ hasToken cs = false := by
  simp only [hasToken, Bool.or_eq_false_iff] at h
  exact h

/-- The core equivalence, by induction on a length bound: on a pattern
free of the literal placeholder the conversion pipeline produces exactly
the rendering of the claim-side tokens. -/
theorem globToRegex_eq_render_aux :
    ∀ (n : Nat) (p : List Char), p.length ≤ n → hasToken p = false →
      globToRegex p = renderAtoms (specGlobTokens p) := by
  intro n
  induction n with
  | zero =>
    intro p hlen _
    have : p = [] := List.length_eq_zero.mp (Nat.le_zero.mp hlen)
    subst this
    rfl
  | succ n' ih =>
    intro p hlen hp
    cases p with
    | nil => rfl
    | cons c ds =>
      obtain ⟨hpre0, hds⟩ := hasToken_cons_false hp
      by_cases hcstar : c = '*'
      · subst hcstar
        rcases hhead : ds.head? with _ | d
        · have hdsnil : ds = [] := by
            cases ds with
            | nil => rfl
            | cons x xs => simp at hhead
          subst hdsnil
          rw [st_star_cons (by simp)]
          show replaceGlobStarToken (midGlob ['*']) = _
          rw [show midGlob ['*'] = '[' :: '^' :: '/' :: ']' :: '*' :: midGlob [] from
            mid_star (by simp)]
          rw [rplh_cons_ne (by decide), rplh_cons_ne (by decide),
            rplh_cons_ne (by decide), rplh_cons_ne (by decide),
            rplh_cons_ne (by decide)]
          rfl
        · by_cases hdstar : d = '*'
          · subst hdstar
            obtain ⟨ds2, hds2⟩ : ∃ ds2, ds = '*' :: ds2 := by
              cases ds with
              | nil => simp at hhead
              | cons x xs =>
                simp only [List.head?_cons, Option.some_inj] at hhead
                exact ⟨xs, by rw [hhead]⟩
            subst hds2
            rw [st_starstar]
            show replaceGlobStarToken (midGlob ('*' :: '*' :: ds2)) = _
            rw [mid_starstar, rplh_token_append]
            have hds2tok : hasToken ds2 = false := (hasToken_cons_false hds).2
            rw [show replaceGlobStarToken (midGlob ds2) = globToRegex ds2 from rfl,
              ih ds2 (by simp only [List.length_cons] at hlen; omega) hds2tok]
            rfl
          · rw [st_star_cons (by rw [hhead]; simpa using hdstar)]
            show replaceGlobStarToken (midGlob ('*' :: ds)) = _
            rw [mid_star (by rw [hhead]; simpa using hdstar)]
            rw [rplh_cons_ne (by decide), rplh_cons_ne (by decide),
              rplh_cons_ne (by decide), rplh_cons_ne (by decide),
              rplh_cons_ne (by decide)]
            rw [show replaceGlobStarToken (midGlob ds) = globToRegex ds from rfl,
              ih ds (by simp only [List.length_cons] at hlen; omega) hds]
            rfl
      · by_cases hcq : c = '?'
        · subst hcq
          rw [st_qmark]
          show replaceGlobStarToken (midGlob ('?' :: ds)) = _
          rw [mid_qmark]
          rw [rplh_cons_ne (by decide), rplh_cons_ne (by decide),
            rplh_cons_ne (by decide), rplh_cons_ne (by decide)]
          rw [show replaceGlobStarToken (midGlob ds) = globToRegex ds from rfl,
            ih ds (by simp only [List.length_cons] at hlen; omega) hds]
          rfl
        · by_cases hcsp : isRegexSpecial c = true
          · rw [st_lit hcstar hcq]
            show replaceGlobStarToken (midGlob (c :: ds)) = _
            rw [mid_special hcsp]
            have hcne : ¬ c = '<' := by
              intro hh
              subst hh
              simp [isRegexSpecial] at hcsp
            rw [rplh_cons_ne (by decide), rplh_cons_ne hcne]
            rw [show replaceGlobStarToken (midGlob ds) = globToRegex ds from rfl,
              ih ds (by simp only [List.length_cons] at hlen; omega) hds]
            simp [renderAtoms, hcsp]
          · rw [st_lit hcstar hcq]
            show replaceGlobStarToken (midGlob (c :: ds)) = _
            rw [mid_plain (by simpa using hcsp) hcstar hcq]
            have hstep : replaceGlobStarToken (c :: midGlob ds) =
                c :: replaceGlobStarToken (midGlob ds) := by
              by_cases hcne : c = '<'
              · subst hcne
                apply rplh_cons_not_token
                intro hpre
                rw [show globStarToken = '<' :: globStarToken.tail from rfl,
                  List.cons_prefix_cons] at hpre
                have htail : globStarToken.tail <+: midGlob ds := hpre.2
                rw [prefix_transfer ds globStarToken.tail goodTail_tokenTail] at htail
                have : ¬ globStarToken <+: '<' :: ds := by
                  intro hpre2
                  rw [← List.isPrefixOf_iff_prefix] at hpre2
                  rw [hpre2] at hpre0
                  cases hpre0
                exact this (by
                  rw [show globStarToken = '<' :: globStarToken.tail from rfl,
                    List.cons_prefix_cons]
                  exact ⟨rfl, htail⟩)
              · exact rplh_cons_ne hcne _
            rw [hstep]
            rw [show replaceGlobStarToken (midGlob ds) = globToRegex ds from rfl,
              ih ds (by simp only [List.length_cons] at hlen; omega) hds]
            simp [renderAtoms, show isRegexSpecial c = false from by simpa using hcsp]


/-- The core equivalence between the conversion pipeline and the
claim-side tokens. -/
theorem globToRegex_eq_render (p : List Char) (hp : hasToken p = false) :
    globToRegex p = renderAtoms (specGlobTokens p) :=
  globToRegex_eq_render_aux p.length p (Nat.le_refl _) hp


/-- The claim-side tokens never contain a literal `*`. -/
theorem st_no_lit_star_aux :
    ∀ (n : Nat) (p : List Char), p.length ≤ n →
      GlobAtom.lit '*' ∉ specGlobTokens p := by
  intro n
  induction n with
  | zero =>
    intro p hlen
    have : p = [] := List.length_eq_zero.mp (Nat.le_zero.mp hlen)
    subst this
    simp [specGlobTokens]
  | succ n' ih =>
    intro p hlen
    cases p with
    | nil => simp [specGlobTokens]
    | cons c ds =>
      simp only [List.length_cons] at hlen
      by_cases hcstar : c = '*'
      · subst hcstar
        rcases hhead : ds.head? with _ | d
        · have hdsnil : ds = [] := by
            cases ds with
            | nil => rfl
            | cons x xs => simp at hhead
          subst hdsnil
          rw [st_star_cons (by simp)]
          simp [specGlobTokens]
        · by_cases hdstar : d = '*'
          · subst hdstar
            obtain ⟨ds2, hds2⟩ : ∃ ds2, ds = '*' :: ds2 := by
              cases ds with
              | nil => simp at hhead
              | cons x xs =>
                simp only [List.head?_cons, Option.some_inj] at hhead
                exact ⟨xs, by rw [hhead]⟩
            subst hds2
            rw [st_starstar]
            intro hmem
            rcases List.mem_cons.mp hmem with h | h
            · cases h
            · exact ih ds2 (by simp only [List.length_cons] at hlen; omega) h
          · rw [st_star_cons (by rw [hhead]; simpa using hdstar)]
            intro hmem
            rcases List.mem_cons.mp hmem with h | h
            · cases h
            · exact ih ds (by omega) h
      · by_cases hcq : c = '?'
        · subst hcq
          rw [st_qmark]
          intro hmem
          rcases List.mem_cons.mp hmem with h | h
          · cases h
          · exact ih ds (by omega) h
        · rw [st_lit hcstar hcq]
          intro hmem
          rcases List.mem_cons.mp hmem with h | h
          · exact hcstar (by injection h with hh; rw [hh])
          · exact ih ds (by omega) h

theorem st_no_lit_star (p : List Char) : GlobAtom.lit '*' ∉ specGlobTokens p :=
  st_no_lit_star_aux p.length p (Nat.le_refl _)

/-- The rendering of a token list without literal `*` never starts with a
raw `*`. -/
theorem render_head_ne_star {ts : List GlobAtom}
    (h : GlobAtom.lit '*' ∉ ts) : (renderAtoms ts).head? ≠ some '*' := by
  cases ts with
  | nil => simp [renderAtoms]
  | cons t ts2 =>
    cases t with
    | anyRun => simp [renderAtoms]
    | nonSepRun => simp [renderAtoms]
    | nonSepOne => simp [renderAtoms]
    | lit c =>
      by_cases hsp : isRegexSpecial c
      · simp [renderAtoms, hsp]
      · have hc : ¬ c = '*' := by
          intro hh
          subst hh
          exact h (List.mem_cons_self _ _)
        simp [renderAtoms, hsp, hc]

/-- The parser inverts the rendering on token lists the conversion can
produce. -/
theorem parse_render_aux :
    ∀ (ts : List GlobAtom) (m : Nat), (renderAtoms ts).length ≤ m →
      GlobAtom.lit '*' ∉ ts → parseAux m (renderAtoms ts) = ts := by
  intro ts
  induction ts with
  | nil =>
    intro m _ _
    cases m <;> rfl
  | cons t ts2 iht =>
    intro m hlen hstar
    have hstar2 : GlobAtom.lit '*' ∉ ts2 :=
      fun hm => hstar (List.mem_cons_of_mem t hm)
    cases t with
    | anyRun =>
      simp only [renderAtoms, List.length_cons] at hlen ⊢
      cases m with
      | zero => omega
      | succ m' =>
        simp [parseAux]
        exact iht m' (by omega) hstar2
    | nonSepRun =>
      simp only [renderAtoms, List.length_cons] at hlen ⊢
      cases m with
      | zero => omega
      | succ m' =>
        simp [parseAux]
        exact iht m' (by omega) hstar2
    | nonSepOne =>
      simp only [renderAtoms, List.length_cons] at hlen ⊢
      cases m with
      | zero => omega
      | succ m' =>
        have hhd : (renderAtoms ts2).head? ≠ some '*' := render_head_ne_star hstar2
        simp [parseAux, hhd]
        exact iht m' (by omega) hstar2
    | lit c =>
      by_cases hsp : isRegexSpecial c
      · have hrender : renderAtoms (GlobAtom.lit c :: ts2) =
            '\\' :: c :: renderAtoms ts2 := by
          simp [renderAtoms, hsp]
        rw [hrender] at hlen ⊢
        simp only [List.length_cons] at hlen
        cases m with
        | zero => omega
        | succ m' =>
          simp [parseAux]
          exact iht m' (by omega) hstar2
      · have hsp' : isRegexSpecial c = false := by simpa using hsp
        have hc1 : ¬ c = '[' := by
          intro hh
          subst hh
          simp [isRegexSpecial] at hsp'
        have hc2 : ¬ c = '.' := by
          intro hh
          subst hh
          simp [isRegexSpecial] at hsp'
        have hc3 : ¬ c = '\\' := by
          intro hh
          subst hh
          simp [isRegexSpecial] at hsp'
        have hrender : renderAtoms (GlobAtom.lit c :: ts2) =
            c :: renderAtoms ts2 := by
          simp [renderAtoms, hsp']
        rw [hrender] at hlen ⊢
        simp only [List.length_cons] at hlen
        cases m with
        | zero => omega
        | succ m' =>
          simp [parseAux, hc1, hc2, hc3]
          exact iht m' (by omega) hstar2

theorem parse_render (ts : List GlobAtom) (h : GlobAtom.lit '*' ∉ ts) :
    parseRegex (renderAtoms ts) = ts :=
  parse_render_aux ts (renderAtoms ts).length (Nat.le_refl _) h

/-- On placeholder-free patterns, the compiled regex matches exactly as
the claim-side tokens do. -/
theorem matchGlobRegex_eq_spec (name q : List Char) (hq : hasToken q = false) :
    matchGlobRegex name q = matchAtoms (specGlobTokens q) name := by
  unfold matchGlobRegex
  rw [globToRegex_eq_render q hq, parse_render _ (st_no_lit_star q)]

theorem hasToken_extend (q : List Char) (c : Char)
    (h : hasToken q = true) : hasToken (q ++ [c]) = true := by
  induction q with
  | nil => simp [hasToken] at h
  | cons a q' ih =>
    simp only [hasToken, Bool.or_eq_true] at h ⊢
    rcases h with h | h
    · left
      rw [List.isPrefixOf_iff_prefix] at h ⊢
      exact h.trans ⟨[c], rfl⟩
    · right
      exact ih h

theorem hasToken_dropLast (p : List Char) (h : hasToken p = false) :
    hasToken p.dropLast = false := by
  by_cases hp0 : p = []
  · subst hp0
    exact h
  · by_contra hT
    have hT' : hasToken p.dropLast = true := by
      cases htd : hasToken p.dropLast with
      | false => exact absurd htd hT
      | true => rfl
    have := hasToken_extend p.dropLast (p.getLast hp0) hT'
    rw [List.dropLast_append_getLast hp0] at this
    rw [this] at h
    cases h

/-- C8 counterexample, two independent divergences from the claim as
stated.  First, the conversion's temporary placeholder leaks: a pattern
literally containing `<<<GLOBSTAR>>>` is matched as if it were `**`
(`.*` in the regex), although under literal treatment of non-wildcard
characters it cannot match `xyz`.  Second, `**` does not match "any run
of any characters": it compiles to `.*`, and the dot without the `s`
flag excludes line terminators, so `**` fails against the name
`a\nb` that the claimed semantics accepts. -/
theorem c8_counterexample :
    matchGlobPattern "xyz".data "<<<GLOBSTAR>>>".data false = true ∧
    specGlobMatch "xyz".data "<<<GLOBSTAR>>>".data false = false ∧
    matchGlobPattern "a\nb".data "**".data false = false := by
  refine ⟨?_, ?_, ?_⟩ <;> decide

/-- C8 (amended): for every name and every pattern that does not contain
the literal substring `<<<GLOBSTAR>>>`, the engine's glob match holds
exactly when the whole name matches the pattern case-insensitively under
the corrected semantics — `*` a run of non-separator characters, `?` one
non-separator character, `**` a run of any characters free of line
terminators (separators included), everything else literal — and a
pattern ending in `/` can only match a directory. -/
theorem c8_glob_semantics (name pattern : List Char) (isDirectory : Bool)
    (hp : hasToken pattern = false) :
    matchGlobPattern name pattern isDirectory =
      specGlobMatch name pattern isDirectory := by
  unfold matchGlobPattern specGlobMatch
  by_cases hlast : pattern.getLast? = some '/'
  · rw [if_pos hlast, if_pos hlast]
    by_cases hdir : isDirectory = false
    · rw [if_pos hdir, if_pos hdir]
    · rw [if_neg hdir, if_neg hdir,
        matchGlobRegex_eq_spec name pattern.dropLast (hasToken_dropLast pattern hp)]
  · rw [if_neg hlast, if_neg hlast, matchGlobRegex_eq_spec name pattern hp]

/-- Witness for C8 (amended) at concrete inputs covering `*`, `**`, `?`,
the directory-only rule, and a name containing a line terminator. -/
theorem c8_glob_semantics_witness :
    (matchGlobPattern "a/b.PYC".data "**.pyc".data false =
      specGlobMatch "a/b.PYC".data "**.pyc".data false) ∧
    (matchGlobPattern "dist".data "dis?/".data false =
      specGlobMatch "dist".data "dis?/".data false) ∧
    (matchGlobPattern "dist".data "dis*/".data true =
      specGlobMatch "dist".data "dis*/".data true) ∧
    (matchGlobPattern "a\nb".data "**".data false =
      specGlobMatch "a\nb".data "**".data false) :=
  ⟨c8_glob_semantics "a/b.PYC".data "**.pyc".data false (by decide),
    c8_glob_semantics "dist".data "dis?/".data false (by decide),
    c8_glob_semantics "dist".data "dis*/".data true (by decide),
    c8_glob_semantics "a\nb".data "**".data false (by decide)⟩

end Files2Prompt
